import Mathlib

/-!
Verification development for the branching-chat application (`src/src/App.jsx`).

Message contents, titles and identifiers are JavaScript strings; we embed them
as `List Char` and embed each JavaScript string helper (`indexOf`, `slice`,
`replaceAll`, `trim`, the whitespace-collapsing regex replaces, the fuzzy
selection-matching regex) as an executable Lean function on `List Char`.
-/

namespace BranchGPT

/-- Contents, titles and ids are JavaScript strings, embedded as lists of characters. -/
abbrev Str := List Char

/-! ## Basic string operations (JavaScript string methods on `Str`) -/

/-- Boolean prefix test: `leadsWith p l` models "string `l` starts with `p`"
(the matching step of `indexOf`, `replaceAll` and literal regex search). -/
def leadsWith : Str → Str → Bool
  | [], _ => true
  | _ :: _, [] => false
  | a :: p, b :: l => a = b && leadsWith p l

/-- Boolean substring-occurrence test: does `pat` occur anywhere in `l`. -/
def occursB (pat : Str) : Str → Bool
  | [] => leadsWith pat []
  | c :: rest => leadsWith pat (c :: rest) || occursB pat rest

/-- Models `String.prototype.indexOf`: index of the first occurrence of `pat`
in `l`, or `none` when `indexOf` returns `-1`. -/
def listIndexOf : Str → Str → Option Nat
  | l, pat =>
    if leadsWith pat l then some 0
    else match l with
      | [] => none
      | _ :: rest => (listIndexOf rest pat).map (· + 1)

/-- Models `String.prototype.replaceAll` with a non-empty literal search string:
scan left to right, replace each non-overlapping occurrence of `pat` by `repl`.
(The app never calls it with an empty search string; for totality an empty
`pat` just returns the input.) -/
def replaceAll (pat repl : Str) : Str → Str
  | [] => []
  | c :: rest =>
    if hmatch : pat ≠ [] ∧ leadsWith pat (c :: rest) then
      repl ++ replaceAll pat repl ((c :: rest).drop pat.length)
    else
      c :: replaceAll pat repl rest
termination_by l => l.length
decreasing_by
  · simp only [List.length_drop, List.length_cons]
    have hp : 0 < pat.length := List.length_pos.mpr hmatch.1
    omega
  · simp

/-- Whitespace test for the JavaScript regex class `\s` (the characters the
app's contents can contain). -/
def isWsChar (c : Char) : Bool :=
  c = ' ' || c = '\t' || c = '\n' || c = '\r' || c = '\x0b' || c = '\x0c'

/-- Models the regex replace `.replace(/\s+/g, " ")`: each maximal run of
whitespace becomes a single space. -/
def collapseWs : Str → Str
  | [] => []
  | c :: rest =>
    if isWsChar c then ' ' :: collapseWs (rest.dropWhile isWsChar)
    else c :: collapseWs rest
termination_by l => l.length
decreasing_by
  · have := (List.dropWhile_sublist (l := rest) (p := isWsChar)).length_le
    simp only [List.length_cons]
    omega
  · simp

/-- Models `String.prototype.trim`: drop whitespace from both ends. -/
def trimWs (l : Str) : Str :=
  ((l.dropWhile isWsChar).reverse.dropWhile isWsChar).reverse

/-- Models `Array.prototype.slice(-n)` / taking the last `n` elements. -/
def takeLast (n : Nat) (l : List α) : List α := l.drop (l.length - n)

/-- Models `String.prototype.split(sep)` for a single-character separator. -/
def splitOnChar (sep : Char) : Str → List Str
  | [] => [[]]
  | c :: rest =>
    if c = sep then [] :: splitOnChar sep rest
    else match splitOnChar sep rest with
      | [] => [[c]]
      | h :: t => (c :: h) :: t

/-- Models `Array.prototype.join(sep)`. -/
def joinSep (sep : Str) : List Str → Str
  | [] => []
  | [x] => x
  | x :: xs => x ++ sep ++ joinSep sep xs

/-- Boolean suffix test (used only to state where a token fragment can sit). -/
def endsWithB (suf l : Str) : Bool :=
  decide (suf.length ≤ l.length ∧ l.drop (l.length - suf.length) = suf)

/-! ### Lemmas about the basic string operations -/

theorem leadsWith_refl_append (p r : Str) : leadsWith p (p ++ r) = true := by
  induction p with
  | nil => rfl
  | cons a p ih => simp [leadsWith, ih]

theorem leadsWith_decomp {p l : Str} (h : leadsWith p l = true) :
    l = p ++ l.drop p.length := by
  induction p generalizing l with
  | nil => simp
  | cons a p ih =>
    cases l with
    | nil => simp [leadsWith] at h
    | cons b l =>
      simp only [leadsWith, Bool.and_eq_true, decide_eq_true_eq] at h
      obtain ⟨rfl, h2⟩ := h
      simpa using ih h2

theorem leadsWith_length_le {p l : Str} (h : leadsWith p l = true) :
    p.length ≤ l.length := by
  have := leadsWith_decomp h
  have : l.length = p.length + (l.drop p.length).length := by
    conv_lhs => rw [this]
    simp
  omega

theorem leadsWith_of_append_left {x y l : Str}
    (h : leadsWith (x ++ y) l = true) : leadsWith x l = true := by
  induction x generalizing l with
  | nil => rfl
  | cons a x ih =>
    cases l with
    | nil => simp [leadsWith] at h
    | cons b l =>
      simp only [List.cons_append, leadsWith, Bool.and_eq_true] at h ⊢
      exact ⟨h.1, ih h.2⟩

theorem leadsWith_append_right {p u : Str} (h : leadsWith p u = true) (v : Str) :
    leadsWith p (u ++ v) = true := by
  induction p generalizing u with
  | nil => rfl
  | cons a p ih =>
    cases u with
    | nil => simp [leadsWith] at h
    | cons b u =>
      simp only [leadsWith, Bool.and_eq_true] at h ⊢
      exact ⟨h.1, ih h.2⟩

theorem leadsWith_of_append_long {p u v : Str} (h : leadsWith p (u ++ v) = true)
    (hlen : p.length ≤ u.length) : leadsWith p u = true := by
  induction p generalizing u with
  | nil => rfl
  | cons a p ih =>
    cases u with
    | nil => simp at hlen
    | cons b u =>
      simp only [List.cons_append, leadsWith, Bool.and_eq_true] at h ⊢
      exact ⟨h.1, ih h.2 (by simpa using hlen)⟩

theorem leadsWith_split {p u w : Str} (h : leadsWith p (u ++ w) = true)
    (hlen : u.length ≤ p.length) :
    u = p.take u.length ∧ leadsWith (p.drop u.length) w = true := by
  induction u generalizing p with
  | nil => simpa using h
  | cons b u ih =>
    cases p with
    | nil => simp at hlen
    | cons a p =>
      simp only [List.cons_append, leadsWith, Bool.and_eq_true, decide_eq_true_eq] at h
      obtain ⟨rfl, h2⟩ := h
      obtain ⟨h3, h4⟩ := ih h2 (by simpa using hlen)
      constructor
      · simpa using h3
      · simpa using h4

theorem leadsWith_iff_take {p l : Str} :
    leadsWith p l = true ↔ p.length ≤ l.length ∧ l.take p.length = p := by
  constructor
  · intro h
    refine ⟨leadsWith_length_le h, ?_⟩
    conv_lhs => rw [leadsWith_decomp h]
    simp
  · intro ⟨h1, h2⟩
    have : l = p ++ l.drop p.length := by
      conv_lhs => rw [← List.take_append_drop p.length l, h2]
    rw [this]
    exact leadsWith_refl_append _ _

theorem occursB_iff {pat l : Str} :
    occursB pat l = true ↔ ∃ j, leadsWith pat (l.drop j) = true := by
  induction l with
  | nil =>
    simp only [occursB]
    constructor
    · intro h; exact ⟨0, h⟩
    · rintro ⟨j, hj⟩; simpa using hj
  | cons c rest ih =>
    simp only [occursB, Bool.or_eq_true, ih]
    constructor
    · rintro (h | ⟨j, hj⟩)
      · exact ⟨0, h⟩
      · exact ⟨j + 1, by simpa using hj⟩
    · rintro ⟨j, hj⟩
      cases j with
      | zero => exact Or.inl (by simpa using hj)
      | succ j => exact Or.inr ⟨j, by simpa using hj⟩

theorem occursB_of_leadsWith {pat l : Str} (h : leadsWith pat l = true) :
    occursB pat l = true :=
  occursB_iff.mpr ⟨0, by simpa using h⟩

theorem occursB_drop {pat l : Str} {n : Nat}
    (h : occursB pat (l.drop n) = true) : occursB pat l = true := by
  obtain ⟨j, hj⟩ := occursB_iff.mp h
  exact occursB_iff.mpr ⟨n + j, by simpa [List.drop_drop, Nat.add_comm] using hj⟩

theorem leadsWith_of_take {pat l : Str} {m : Nat}
    (h : leadsWith pat (l.take m) = true) : leadsWith pat l = true := by
  have hd := leadsWith_decomp h
  have : l = pat ++ ((l.take m).drop pat.length ++ l.drop m) := by
    conv_lhs => rw [← List.take_append_drop m l]
    rw [hd]; simp
  rw [this]
  exact leadsWith_refl_append _ _

theorem occursB_take {pat l : Str} {m : Nat}
    (h : occursB pat (l.take m) = true) : occursB pat l = true := by
  obtain ⟨j, hj⟩ := occursB_iff.mp h
  rw [List.drop_take] at hj
  exact occursB_iff.mpr ⟨j, leadsWith_of_take hj⟩

theorem listIndexOf_spec {l pat : Str} {i : Nat}
    (h : listIndexOf l pat = some i) :
    l.take i ++ pat ++ l.drop (i + pat.length) = l ∧
      leadsWith pat (l.drop i) = true := by
  induction l generalizing i with
  | nil =>
    rw [listIndexOf] at h
    by_cases hp : leadsWith pat [] = true
    · simp only [hp, if_true] at h
      cases h
      have hpat : pat = [] := by
        cases pat with
        | nil => rfl
        | cons a p => simp [leadsWith] at hp
      subst hpat
      simp [leadsWith]
    · simp [hp] at h
  | cons c rest ih =>
    rw [listIndexOf] at h
    by_cases hp : leadsWith pat (c :: rest) = true
    · simp only [hp, if_true] at h
      cases h
      refine ⟨?_, by simpa using hp⟩
      have hd := leadsWith_decomp hp
      simp only [List.take_zero, List.nil_append, Nat.zero_add]
      exact hd.symm
    · simp only [hp, if_false] at h
      match h2 : listIndexOf rest pat with
      | none => rw [h2] at h; simp at h
      | some i' =>
        rw [h2] at h
        simp only [Option.map_some'] at h
        cases h
        obtain ⟨ha, hb⟩ := ih h2
        refine ⟨?_, by simpa using hb⟩
        have := congrArg (c :: ·) ha
        simpa [Nat.add_right_comm] using this

theorem listIndexOf_isSome_of_occursB {l pat : Str}
    (h : occursB pat l = true) : ∃ i, listIndexOf l pat = some i := by
  induction l with
  | nil =>
    refine ⟨0, ?_⟩
    rw [listIndexOf]
    simp only [occursB] at h
    simp [h]
  | cons c rest ih =>
    rw [listIndexOf]
    by_cases hp : leadsWith pat (c :: rest) = true
    · exact ⟨0, by simp [hp]⟩
    · rw [occursB, Bool.or_eq_true] at h
      rcases h with h | h
      · exact absurd h hp
      · obtain ⟨i, hi⟩ := ih h
        exact ⟨i + 1, by simp [hp, hi]⟩

theorem replaceAll_nil (pat repl : Str) : replaceAll pat repl [] = [] := by
  rw [replaceAll]

theorem replaceAll_cons_pos {pat : Str} (repl : Str) {c : Char} {rest : Str}
    (h1 : pat ≠ []) (h2 : leadsWith pat (c :: rest) = true) :
    replaceAll pat repl (c :: rest) =
      repl ++ replaceAll pat repl ((c :: rest).drop pat.length) := by
  rw [replaceAll]
  simp [h1, h2]

theorem replaceAll_cons_neg {pat : Str} (repl : Str) {c : Char} {rest : Str}
    (h : ¬(pat ≠ [] ∧ leadsWith pat (c :: rest) = true)) :
    replaceAll pat repl (c :: rest) = c :: replaceAll pat repl rest := by
  rw [replaceAll, dif_neg h]

theorem replaceAll_eq_self {pat : Str} (repl : Str) {l : Str}
    (h : occursB pat l = false) : replaceAll pat repl l = l := by
  induction l with
  | nil => exact replaceAll_nil pat repl
  | cons c rest ih =>
    rw [occursB, Bool.or_eq_false_iff] at h
    rw [replaceAll_cons_neg repl (by simp [h.1])]
    rw [ih h.2]

theorem replaceAll_first_occ {pat : Str} (repl : Str) {A B : Str}
    (hne : pat ≠ [])
    (hfo : ∀ j, j < A.length → leadsWith pat ((A ++ pat ++ B).drop j) = false) :
    replaceAll pat repl (A ++ pat ++ B) = A ++ repl ++ replaceAll pat repl B := by
  induction A with
  | nil =>
    simp only [List.nil_append]
    cases pat with
    | nil => exact absurd rfl hne
    | cons p0 ps =>
      have hlw : leadsWith (p0 :: ps) ((p0 :: ps) ++ B) = true :=
        leadsWith_refl_append _ _
      rw [show (p0 :: ps) ++ B = p0 :: (ps ++ B) from rfl] at hlw ⊢
      rw [replaceAll_cons_pos repl hne hlw]
      have : (p0 :: (ps ++ B)).drop (p0 :: ps).length = B := by
        have := List.drop_left (p0 :: ps) B
        simpa using this
      rw [this]
  | cons a A ih =>
    have h0 := hfo 0 (by simp)
    simp only [List.drop_zero, List.cons_append] at h0
    have hcond : ¬(pat ≠ [] ∧ leadsWith pat (a :: (A ++ pat ++ B)) = true) := by
      intro hc
      rw [h0] at hc
      exact Bool.false_ne_true hc.2
    have hih := ih (fun j hj => by
      have := hfo (j + 1) (by simpa using Nat.succ_lt_succ hj)
      simpa using this)
    calc replaceAll pat repl ((a :: A) ++ pat ++ B)
        = replaceAll pat repl (a :: (A ++ pat ++ B)) := by simp
      _ = a :: replaceAll pat repl (A ++ pat ++ B) := replaceAll_cons_neg repl hcond
      _ = a :: (A ++ repl ++ replaceAll pat repl B) := by rw [hih]
      _ = (a :: A) ++ repl ++ replaceAll pat repl B := by simp

/-- Self-overlap condition: a pattern that equals a shifted copy of itself
could occur straddling the boundary where it is spliced in; the concrete
marker tokens never do. -/
def noSelfOverlap (p : Str) : Prop :=
  ∀ k, k < p.length → 0 < k → p.drop k ≠ p.take (p.length - k)

theorem drop_append_small {X Y : Str} {j : Nat} (hj : j ≤ X.length) :
    (X ++ Y).drop j = X.drop j ++ Y := by
  rw [List.drop_append_eq_append_drop]
  have : j - X.length = 0 := by omega
  rw [this, List.drop_zero]

theorem firstOcc_of_noSelfOverlap {q : Str} (A R : Str)
    (hA : occursB q A = false) (hso : noSelfOverlap q) :
    ∀ j, j < A.length → leadsWith q ((A ++ q ++ R).drop j) = false := by
  intro j hj
  by_contra hcon
  have h : leadsWith q ((A ++ q ++ R).drop j) = true := by
    revert hcon
    cases leadsWith q ((A ++ q ++ R).drop j) <;> simp
  rw [List.append_assoc, drop_append_small (Nat.le_of_lt hj)] at h
  rcases le_or_lt q.length (A.drop j).length with hlen | hlen
  · have := leadsWith_of_append_long h hlen
    have : occursB q A = true := occursB_iff.mpr ⟨j, this⟩
    rw [hA] at this
    exact Bool.false_ne_true this
  · obtain ⟨htake, hrest⟩ := leadsWith_split h (Nat.le_of_lt hlen)
    have hklen : (q.drop ((A.drop j).length)).length ≤ q.length := by
      simp only [List.length_drop]
      omega
    have hq : leadsWith (q.drop ((A.drop j).length)) q = true :=
      leadsWith_of_append_long hrest hklen
    have heq : q.take (q.drop ((A.drop j).length)).length
        = q.drop ((A.drop j).length) := (leadsWith_iff_take.mp hq).2
    have hlenA : (A.drop j).length = A.length - j := by simp
    have h0 : 0 < A.length - j := by omega
    have h1 : A.length - j < q.length := by omega
    apply hso (A.length - j) h1 h0
    rw [← hlenA] at *
    have : (q.drop ((A.drop j).length)).length = q.length - (A.drop j).length := by
      simp
    rw [this] at heq
    exact heq.symm

theorem occursB_append_decomp {p X Y : Str} (h : occursB p (X ++ Y) = true) :
    occursB p X = true ∨ occursB p Y = true ∨
      ∃ k, 0 < k ∧ k < p.length ∧ endsWithB (p.take k) X = true ∧
        leadsWith (p.drop k) Y = true := by
  obtain ⟨j, hj⟩ := occursB_iff.mp h
  rcases Nat.lt_or_ge j X.length with hjX | hjX
  · rw [drop_append_small (Nat.le_of_lt hjX)] at hj
    rcases le_or_lt p.length (X.drop j).length with hlen | hlen
    · exact Or.inl (occursB_iff.mpr ⟨j, leadsWith_of_append_long hj hlen⟩)
    · obtain ⟨htake, hrest⟩ := leadsWith_split hj (Nat.le_of_lt hlen)
      refine Or.inr (Or.inr ⟨(X.drop j).length, ?_, hlen, ?_, hrest⟩)
      · simp only [List.length_drop]
        omega
      · have hklen : (p.take ((X.drop j).length)).length = (X.drop j).length := by
          simp only [List.length_take]
          omega
        rw [endsWithB, decide_eq_true_eq]
        refine ⟨by simp [hklen], ?_⟩
        rw [hklen]
        have : X.length - (X.length - j) = j := by omega
        simp only [List.length_drop] at *
        rw [this]
        exact htake
  · rw [List.drop_append_eq_append_drop] at hj
    have : X.drop j = [] := List.drop_eq_nil_of_le hjX
    rw [this, List.nil_append] at hj
    exact Or.inr (Or.inl (occursB_iff.mpr ⟨j - X.length, hj⟩))

/-! ## Marker codec (`App.jsx` lines 21-148) -/

/-- Token constant `TEMP_HL_START` from the source. -/
def TEMP_HL_START : Str := "[[[sel:".toList

/-- Token constant `TEMP_HL_END` from the source. -/
def TEMP_HL_END : Str := "[[[/sel]]]".toList

/-- Closing bracket sequence that terminates a start token's id field. -/
def METAEND : Str := "]]]".toList

/-- The full temporary start token: `` `${TEMP_HL_START}${tempId}]]]` ``. -/
def tempStartTok (tempId : Str) : Str := TEMP_HL_START ++ tempId ++ METAEND

/-- Models the global regex replace `.replace(/\[\[\[sel:[^\]]+\]\]\]/g, "")`
inside `stripAllTempHighlights`: remove every leftmost match of `[[[sel:`
followed by one or more non-`]` characters followed by `]]]`. -/
def stripSelMarkers : Str → Str
  | [] => []
  | c :: rest =>
    if leadsWith TEMP_HL_START (c :: rest) then
      if ((c :: rest).drop TEMP_HL_START.length).takeWhile (· ≠ ']') ≠ [] ∧
          leadsWith METAEND
            (((c :: rest).drop TEMP_HL_START.length).dropWhile (· ≠ ']')) then
        stripSelMarkers
          ((((c :: rest).drop TEMP_HL_START.length).dropWhile (· ≠ ']')).drop
            METAEND.length)
      else c :: stripSelMarkers rest
    else c :: stripSelMarkers rest
termination_by l => l.length
decreasing_by
  · have h2 := (List.dropWhile_sublist
      (l := (c :: rest).drop TEMP_HL_START.length) (p := (· ≠ ']'))).length_le
    have h3 : ((c :: rest).drop TEMP_HL_START.length).length
        = rest.length + 1 - TEMP_HL_START.length := by simp
    have h4 : TEMP_HL_START.length = 7 := rfl
    have h5 : METAEND.length = 3 := rfl
    simp only [List.length_drop, List.length_cons]
    omega
  · simp
  · simp

/-- Models `stripAllTempHighlights` (lines 48-53): remove every end token, then
every complete temporary start token. -/
def stripAllTempHighlights (content : Str) : Str :=
  if content = [] then content
  else stripSelMarkers (replaceAll TEMP_HL_END [] content)

/-- One item of the compiled fallback search pattern: a literal character, or
the one-or-more-whitespace wildcard `\s+`. -/
inductive PatItem where
  | lit (c : Char)
  | wsp
deriving DecidableEq

/-- Models building the fallback regex source
`escapeRegex(selectedText.trim()).replace(/\s+/g, "\\s+")`: after escaping,
the pattern is the trimmed selection read literally with each maximal
whitespace run replaced by the `\s+` wildcard. -/
def tokenizePattern : Str → List PatItem
  | [] => []
  | c :: rest =>
    if isWsChar c then .wsp :: tokenizePattern (rest.dropWhile isWsChar)
    else .lit c :: tokenizePattern rest
termination_by l => l.length
decreasing_by
  · have := (List.dropWhile_sublist (l := rest) (p := isWsChar)).length_le
    simp only [List.length_cons]
    omega
  · simp

/-- The compiled fallback pattern for a selection string. -/
def patternOf (selectedText : Str) : List PatItem := tokenizePattern (trimWs selectedText)

/-- Matches the compiled pattern at the start of `l`, returning the matched
length. The wildcard consumes a maximal whitespace run; because the pattern is
built from a trimmed string, a wildcard is always followed by a non-whitespace
literal (or the pattern end), so this equals the backtracking regex semantics. -/
def patMatchLen : List PatItem → Str → Option Nat
  | [], _ => some 0
  | .lit _ :: _, [] => none
  | .lit c :: ps, x :: xs => if x = c then (patMatchLen ps xs).map (· + 1) else none
  | .wsp :: ps, l =>
    if (l.takeWhile isWsChar).length = 0 then none
    else (patMatchLen ps (l.dropWhile isWsChar)).map (· + (l.takeWhile isWsChar).length)

/-- Models `RegExp.prototype.exec`: the leftmost match of the compiled pattern,
as (index, matched length). -/
def regexExecFirst (pat : List PatItem) : Str → Option (Nat × Nat)
  | [] =>
    match patMatchLen pat [] with
    | some n => some (0, n)
    | none => none
  | c :: rest =>
    match patMatchLen pat (c :: rest) with
    | some n => some (0, n)
    | none => (regexExecFirst pat rest).map (fun p => (p.1 + 1, p.2))

/-- Models `wrapFirstMatchWithTempHighlight` (lines 55-88). -/
def wrapFirstMatchWithTempHighlight (content selectedText tempId : Str) : Str :=
  if content = [] ∨ selectedText = [] ∨ tempId = [] then content
  else
    match listIndexOf (stripAllTempHighlights content) selectedText with
    | some exactIndex =>
        (stripAllTempHighlights content).take exactIndex
          ++ tempStartTok tempId
          ++ ((stripAllTempHighlights content).drop exactIndex).take selectedText.length
          ++ TEMP_HL_END
          ++ (stripAllTempHighlights content).drop (exactIndex + selectedText.length)
    | none =>
        match regexExecFirst (patternOf selectedText) (stripAllTempHighlights content) with
        | some (idx, mlen) =>
            (stripAllTempHighlights content).take idx
              ++ tempStartTok tempId
              ++ ((stripAllTempHighlights content).drop idx).take mlen
              ++ TEMP_HL_END
              ++ (stripAllTempHighlights content).drop (idx + mlen)
        | none => stripAllTempHighlights content

/-- Models `removeTempHighlightById` (lines 90-95). -/
def removeTempHighlightById (content tempId : Str) : Str :=
  if content = [] then content
  else if tempId = [] then stripAllTempHighlights content
  else replaceAll TEMP_HL_END [] (replaceAll (tempStartTok tempId) [] content)

/-! ### Strip-identity and occurrence-transfer lemmas for the codec -/

theorem stripSelMarkers_eq_self {l : Str}
    (h : occursB TEMP_HL_START l = false) : stripSelMarkers l = l := by
  induction l with
  | nil => rw [stripSelMarkers]
  | cons c rest ih =>
    rw [occursB, Bool.or_eq_false_iff] at h
    rw [stripSelMarkers]
    rw [if_neg (by simp [h.1])]
    rw [ih h.2]

theorem stripAll_eq_self {c : Str}
    (hq : occursB TEMP_HL_START c = false)
    (he : occursB TEMP_HL_END c = false) :
    stripAllTempHighlights c = c := by
  rw [stripAllTempHighlights]
  by_cases hc : c = []
  · simp [hc]
  · rw [if_neg hc, replaceAll_eq_self _ he, stripSelMarkers_eq_self hq]

theorem occursB_tempStartTok_mono {t l : Str}
    (h : occursB (tempStartTok t) l = true) : occursB TEMP_HL_START l = true := by
  obtain ⟨j, hj⟩ := occursB_iff.mp h
  rw [tempStartTok, List.append_assoc] at hj
  exact occursB_iff.mpr ⟨j, leadsWith_of_append_left hj⟩

theorem occursB_infix_take_drop {p c : Str} {n m : Nat}
    (h : occursB p ((c.drop n).take m) = true) : occursB p c = true :=
  occursB_drop (l := c) (n := n) (occursB_take h)

theorem occursB_take_false {pat l : Str} (h : occursB pat l = false) (m : Nat) :
    occursB pat (l.take m) = false := by
  cases h2 : occursB pat (l.take m) with
  | false => rfl
  | true =>
    have := occursB_take h2
    rw [h] at this
    exact absurd this (by simp)

theorem occursB_drop_false {pat l : Str} (h : occursB pat l = false) (n : Nat) :
    occursB pat (l.drop n) = false := by
  cases h2 : occursB pat (l.drop n) with
  | false => rfl
  | true =>
    have := occursB_drop h2
    rw [h] at this
    exact absurd this (by simp)

/-! ### Concrete facts about the marker tokens (decided by computation) -/

theorem noSelfOverlap_tempStart : noSelfOverlap TEMP_HL_START := by
  unfold noSelfOverlap; decide

theorem noSelfOverlap_tempEnd : noSelfOverlap TEMP_HL_END := by
  unfold noSelfOverlap; decide

theorem tempStart_not_in_tempEnd : occursB TEMP_HL_START TEMP_HL_END = false := by
  decide

theorem tempStart_drop_not_leads_tempEnd :
    ∀ k, k < TEMP_HL_START.length → 0 < k →
      leadsWith (TEMP_HL_START.drop k) TEMP_HL_END = false := by
  decide

theorem tempStart_take_not_ends_tempEnd :
    ∀ k, k < TEMP_HL_START.length → 0 < k →
      endsWithB (TEMP_HL_START.take k) TEMP_HL_END = false := by
  decide

theorem tempStart_len_le_tempEnd_len : TEMP_HL_START.length ≤ TEMP_HL_END.length := by
  decide

/-- A start token cannot occur inside `S ++ TEMP_HL_END ++ B` when it occurs
in neither `S` nor `B`: it cannot sit inside the end token nor straddle its
boundaries. -/
theorem tempStart_not_in_spliced {S B : Str}
    (hS : occursB TEMP_HL_START S = false)
    (hB : occursB TEMP_HL_START B = false) :
    occursB TEMP_HL_START (S ++ (TEMP_HL_END ++ B)) = false := by
  cases hcon : occursB TEMP_HL_START (S ++ (TEMP_HL_END ++ B)) with
  | false => rfl
  | true =>
    exfalso
    rcases occursB_append_decomp hcon with h1 | h2 | ⟨k, hk0, hklt, _, hklead⟩
    · rw [hS] at h1
      exact Bool.false_ne_true h1
    · rcases occursB_append_decomp h2 with h3 | h4 | ⟨k, hk0, hklt, hkend, _⟩
      · rw [tempStart_not_in_tempEnd] at h3
        exact Bool.false_ne_true h3
      · rw [hB] at h4
        exact Bool.false_ne_true h4
      · have := tempStart_take_not_ends_tempEnd k hklt hk0
        rw [this] at hkend
        exact Bool.false_ne_true hkend
    · have hlen : (TEMP_HL_START.drop k).length ≤ TEMP_HL_END.length := by
        simp only [List.length_drop]
        have := tempStart_len_le_tempEnd_len
        omega
      have hlead := leadsWith_of_append_long hklead hlen
      have := tempStart_drop_not_leads_tempEnd k hklt hk0
      rw [this] at hlead
      exact Bool.false_ne_true hlead

/-- First-occurrence condition for splicing in a full start token: no
occurrence of the token can begin strictly inside the text before it. -/
theorem firstOcc_tempTok {A : Str} (t R : Str)
    (hA : occursB TEMP_HL_START A = false) :
    ∀ j, j < A.length →
      leadsWith (tempStartTok t) ((A ++ tempStartTok t ++ R).drop j) = false := by
  intro j hj
  cases h : leadsWith (tempStartTok t) ((A ++ tempStartTok t ++ R).drop j) with
  | false => rfl
  | true =>
    exfalso
    have htok : tempStartTok t = TEMP_HL_START ++ (t ++ METAEND) := by
      simp [tempStartTok, List.append_assoc]
    have hq' : leadsWith TEMP_HL_START ((A ++ tempStartTok t ++ R).drop j) = true := by
      rw [htok] at h
      exact leadsWith_of_append_left h
    have hshape : A ++ tempStartTok t ++ R
        = A ++ TEMP_HL_START ++ (t ++ METAEND ++ R) := by
      simp [tempStartTok, List.append_assoc]
    rw [hshape] at hq'
    have := firstOcc_of_noSelfOverlap A (t ++ METAEND ++ R) hA noSelfOverlap_tempStart j hj
    rw [this] at hq'
    exact Bool.false_ne_true hq'

/-- Claim C3 (as stated) is refuted by contents that already contain marker
tokens: for `c = "[[[/sel]]]x"`, `s = "x"`, `id = "t"`, the content contains
`s` verbatim, yet `removeTemporary(wrapTemporary(c, s, id), id) = "x" ≠ c`
because `wrapTemporary` strips the pre-existing end token first. -/
theorem claim_C3_counterexample :
    occursB "x".toList "[[[/sel]]]x".toList = true ∧
      removeTempHighlightById
          (wrapFirstMatchWithTempHighlight "[[[/sel]]]x".toList "x".toList "t".toList)
          "t".toList
        ≠ "[[[/sel]]]x".toList := by
  constructor
  · decide
  · have hwrap :
        wrapFirstMatchWithTempHighlight "[[[/sel]]]x".toList "x".toList "t".toList
          = "[[[sel:t]]]x[[[/sel]]]".toList := by
      simp +decide [wrapFirstMatchWithTempHighlight, stripAllTempHighlights, replaceAll,
        stripSelMarkers, TEMP_HL_END, TEMP_HL_START, METAEND, List.drop, tempStartTok,
        listIndexOf]
    rw [hwrap]
    have hrem :
        removeTempHighlightById "[[[sel:t]]]x[[[/sel]]]".toList "t".toList
          = "x".toList := by
      simp +decide [removeTempHighlightById, replaceAll, TEMP_HL_END, TEMP_HL_START,
        METAEND, List.drop, tempStartTok]
    rw [hrem]
    decide

/-- Claim C3 (amended): wrapping then removing the temporary marker is
content-preserving for every content `c` that contains the selection `s`
verbatim and contains no temporary-marker token material itself (no occurrence
of the start-token head `[[[sel:` and none of the end token `[[[/sel]]]`),
for every temporary id. -/
theorem claim_C3_roundtrip_marker_free (c s tempId : Str)
    (hs : occursB s c = true)
    (hq : occursB TEMP_HL_START c = false)
    (he : occursB TEMP_HL_END c = false) :
    removeTempHighlightById (wrapFirstMatchWithTempHighlight c s tempId) tempId = c := by
  have hclean : stripAllTempHighlights c = c := stripAll_eq_self hq he
  by_cases hc : c = []
  · subst hc
    have hs0 : s = [] := by
      rw [occursB] at hs
      cases s with
      | nil => rfl
      | cons a t => simp [leadsWith] at hs
    subst hs0
    simp [wrapFirstMatchWithTempHighlight, removeTempHighlightById]
  · by_cases hsn : s = []
    · subst hsn
      rw [wrapFirstMatchWithTempHighlight, if_pos (by simp)]
      rw [removeTempHighlightById, if_neg hc]
      by_cases ht : tempId = []
      · rw [if_pos ht, hclean]
      · rw [if_neg ht]
        have h1 : occursB (tempStartTok tempId) c = false := by
          cases h2 : occursB (tempStartTok tempId) c with
          | false => rfl
          | true =>
            have := occursB_tempStartTok_mono h2
            rw [hq] at this
            exact absurd this (by simp)
        rw [replaceAll_eq_self _ h1, replaceAll_eq_self _ he]
    · by_cases ht : tempId = []
      · subst ht
        rw [wrapFirstMatchWithTempHighlight, if_pos (by simp)]
        rw [removeTempHighlightById, if_neg hc, if_pos rfl, hclean]
      · obtain ⟨i, hi⟩ := listIndexOf_isSome_of_occursB hs
        obtain ⟨hdecomp, hlw⟩ := listIndexOf_spec hi
        have hS : (c.drop i).take s.length = s := by
          have := (leadsWith_iff_take.mp hlw).2
          simpa using this
        have hwrap : wrapFirstMatchWithTempHighlight c s tempId
            = c.take i ++ tempStartTok tempId ++ s ++ TEMP_HL_END
                ++ c.drop (i + s.length) := by
          rw [wrapFirstMatchWithTempHighlight, if_neg (by simp [hc, hsn, ht])]
          rw [hclean]
          rw [hi]
          show c.take i ++ tempStartTok tempId ++ (c.drop i).take s.length
              ++ TEMP_HL_END ++ c.drop (i + s.length)
            = c.take i ++ tempStartTok tempId ++ s ++ TEMP_HL_END
                ++ c.drop (i + s.length)
          rw [hS]
        rw [hwrap]
        have hsl : 0 < s.length := List.length_pos.mpr hsn
        have hslc : s.length ≤ c.length - i := by
          have := leadsWith_length_le hlw
          simpa using this
        have hic : i < c.length := by omega
        have hAlen : (c.take i).length = i := by
          simp only [List.length_take]
          omega
        have hqA : occursB TEMP_HL_START (c.take i) = false := occursB_take_false hq i
        have hqS : occursB TEMP_HL_START s = false := by
          rw [← hS]
          exact occursB_take_false (occursB_drop_false hq i) s.length
        have hqB : occursB TEMP_HL_START (c.drop (i + s.length)) = false :=
          occursB_drop_false hq _
        have heB : occursB TEMP_HL_END (c.drop (i + s.length)) = false :=
          occursB_drop_false he _
        have hASeq : c.take i ++ s = c.take (i + s.length) := by
          rw [List.take_add, hS]
        have heAS : occursB TEMP_HL_END (c.take i ++ s) = false := by
          rw [hASeq]
          exact occursB_take_false he _
        have htoknil : tempStartTok tempId ≠ [] := by
          simp [tempStartTok, METAEND]
        have hWnil : c.take i ++ tempStartTok tempId ++ s ++ TEMP_HL_END
            ++ c.drop (i + s.length) ≠ [] := by
          simp [htoknil]
        rw [removeTempHighlightById, if_neg hWnil, if_neg ht]
        have hW : c.take i ++ tempStartTok tempId ++ s ++ TEMP_HL_END
              ++ c.drop (i + s.length)
            = c.take i ++ tempStartTok tempId
                ++ (s ++ (TEMP_HL_END ++ c.drop (i + s.length))) := by
          simp [List.append_assoc]
        rw [hW]
        rw [replaceAll_first_occ [] htoknil
          (firstOcc_tempTok tempId (s ++ (TEMP_HL_END ++ c.drop (i + s.length))) hqA)]
        have htokSEB : occursB (tempStartTok tempId)
            (s ++ (TEMP_HL_END ++ c.drop (i + s.length))) = false := by
          cases h2 : occursB (tempStartTok tempId)
              (s ++ (TEMP_HL_END ++ c.drop (i + s.length))) with
          | false => rfl
          | true =>
            have := occursB_tempStartTok_mono h2
            rw [tempStart_not_in_spliced hqS hqB] at this
            exact absurd this (by simp)
        rw [replaceAll_eq_self _ htokSEB]
        have h2shape : c.take i ++ [] ++ (s ++ (TEMP_HL_END ++ c.drop (i + s.length)))
            = (c.take i ++ s) ++ TEMP_HL_END ++ c.drop (i + s.length) := by
          simp [List.append_assoc]
        rw [h2shape]
        have hEnil : TEMP_HL_END ≠ [] := by decide
        rw [replaceAll_first_occ [] hEnil
          (firstOcc_of_noSelfOverlap (c.take i ++ s) (c.drop (i + s.length)) heAS
            noSelfOverlap_tempEnd)]
        rw [replaceAll_eq_self _ heB]
        have := hdecomp
        simp only [List.append_assoc] at this ⊢
        simpa using this

/-- Witness for the amended claim C3 at a concrete marker-free input. -/
theorem claim_C3_roundtrip_marker_free_witness :
    removeTempHighlightById
        (wrapFirstMatchWithTempHighlight "The sky is blue.".toList "sky is".toList
          "tmp1".toList)
        "tmp1".toList
      = "The sky is blue.".toList :=
  claim_C3_roundtrip_marker_free _ _ _ (by decide) (by decide) (by decide)

/-- Claim C4 (as stated) is refuted when the content already carries temporary
marker material: with `c = "[[[/sel]]]abc"`, `s = "zzz"`, `id = "t"`, neither
the exact match nor the regex fallback finds `s`, yet the function returns
`"abc"`, not `c` unchanged — the pre-existing end token was stripped. -/
theorem claim_C4_counterexample :
    listIndexOf (stripAllTempHighlights "[[[/sel]]]abc".toList) "zzz".toList = none ∧
      regexExecFirst (patternOf "zzz".toList)
          (stripAllTempHighlights "[[[/sel]]]abc".toList) = none ∧
      wrapFirstMatchWithTempHighlight "[[[/sel]]]abc".toList "zzz".toList "t".toList
        ≠ "[[[/sel]]]abc".toList := by
  have hstrip : stripAllTempHighlights "[[[/sel]]]abc".toList = "abc".toList := by
    simp +decide [stripAllTempHighlights, replaceAll, stripSelMarkers, TEMP_HL_END,
      TEMP_HL_START, METAEND, List.drop]
  have hpat : patternOf "zzz".toList = [.lit 'z', .lit 'z', .lit 'z'] := by
    simp +decide [patternOf, tokenizePattern, trimWs, isWsChar]
  refine ⟨by rw [hstrip]; decide, by rw [hstrip, hpat]; decide, ?_⟩
  have hwrap : wrapFirstMatchWithTempHighlight "[[[/sel]]]abc".toList "zzz".toList
      "t".toList = "abc".toList := by
    rw [wrapFirstMatchWithTempHighlight, if_neg (by decide), hstrip]
    rw [show listIndexOf "abc".toList "zzz".toList = none from by decide]
    rw [hpat]
    rw [show regexExecFirst [PatItem.lit 'z', .lit 'z', .lit 'z'] "abc".toList = none
      from by decide]
  rw [hwrap]
  decide

/-- Claim C4 (amended): when neither the exact substring search nor the
whitespace-normalized regex fallback finds the selection, the function returns
the content with any pre-existing temporary markers stripped — and hence the
content unchanged whenever the content carries no temporary marker material.
It never throws (the embedding is total by construction). -/
theorem claim_C4_no_match_returns_stripped (c s tempId : Str)
    (hc : c ≠ []) (hsn : s ≠ []) (ht : tempId ≠ [])
    (hnoexact : listIndexOf (stripAllTempHighlights c) s = none)
    (hnore : regexExecFirst (patternOf s) (stripAllTempHighlights c) = none) :
    wrapFirstMatchWithTempHighlight c s tempId = stripAllTempHighlights c ∧
      (occursB TEMP_HL_START c = false → occursB TEMP_HL_END c = false →
        wrapFirstMatchWithTempHighlight c s tempId = c) := by
  have h1 : wrapFirstMatchWithTempHighlight c s tempId = stripAllTempHighlights c := by
    rw [wrapFirstMatchWithTempHighlight, if_neg (by simp [hc, hsn, ht]), hnoexact]
    rw [hnore]
  refine ⟨h1, fun hq he => ?_⟩
  rw [h1, stripAll_eq_self hq he]

/-- Witness for the amended claim C4 at a concrete marker-free input. -/
theorem claim_C4_no_match_returns_stripped_witness :
    wrapFirstMatchWithTempHighlight "hello world".toList "zzz".toList "t1".toList
      = "hello world".toList := by
  have hstrip : stripAllTempHighlights "hello world".toList = "hello world".toList :=
    stripAll_eq_self (by decide) (by decide)
  have hpat : patternOf "zzz".toList = [.lit 'z', .lit 'z', .lit 'z'] := by
    simp +decide [patternOf, tokenizePattern, trimWs, isWsChar]
  exact (claim_C4_no_match_returns_stripped _ _ _ (by decide) (by decide) (by decide)
    (by rw [hstrip]; decide) (by rw [hstrip, hpat]; decide)).2 (by decide) (by decide)

/-! ## Data model (Tree Store, `App.jsx` lines 259-306 and 608-727) -/

/-- Lifecycle states of a branch node's outstanding request. A node object
whose `requestStatus` field is absent in JavaScript behaves as `idle` in every
check the app performs, so absence is embedded as `idle`. -/
inductive RequestStatus where
  | idle
  | pending
  | ready
deriving DecidableEq, Repr

/-- One chat message `{role, content}`. -/
structure Message where
  role : Str
  content : Str
deriving DecidableEq, Repr

/-- The `branchContext` record attached to a branch node. -/
structure BranchContext where
  excerpt : Str
  sourceNodeId : Str
  createdAt : Nat
deriving DecidableEq, Repr

/-- One conversation node. A JavaScript node object with no `hasUnread` field
behaves as `hasUnread = false`; defaults embed the fields the root node lacks. -/
structure Node where
  id : Str
  parentId : Option Str
  title : Str
  messages : List Message
  branchContext : Option BranchContext := none
  requestStatus : RequestStatus := .idle
  hasUnread : Bool := false
deriving DecidableEq, Repr

/-- JavaScript object maps (`nodesById`, `treesById`) are embedded as
insertion-ordered association lists; this is key lookup. -/
def alookup : List (Str × α) → Str → Option α
  | [], _ => none
  | (k, v) :: rest, key => if k = key then some v else alookup rest key

/-- Models the object spread `{ ...prev, [key]: value }`: replace the value at
an existing key in place, otherwise append the new key at the end. -/
def objSet (l : List (Str × α)) (k : Str) (v : α) : List (Str × α) :=
  if (alookup l k).isSome then l.map (fun p => if p.1 = k then (k, v) else p)
  else l ++ [(k, v)]

theorem alookup_append_right {l₁ l₂ : List (Str × α)} {k : Str}
    (h : alookup l₁ k = none) : alookup (l₁ ++ l₂) k = alookup l₂ k := by
  induction l₁ with
  | nil => rfl
  | cons p rest ih =>
    obtain ⟨k', v'⟩ := p
    rw [alookup] at h
    by_cases hk : k' = k
    · simp [hk] at h
    · rw [if_neg hk] at h
      rw [List.cons_append, alookup, if_neg hk]
      exact ih h

theorem alookup_append (l₁ l₂ : List (Str × α)) (k : Str) :
    alookup (l₁ ++ l₂) k
      = match alookup l₁ k with
        | some v => some v
        | none => alookup l₂ k := by
  induction l₁ with
  | nil => rfl
  | cons p rest ih =>
    obtain ⟨k0, v0⟩ := p
    rw [List.cons_append, alookup, alookup]
    by_cases hk0 : k0 = k
    · simp [hk0]
    · rw [if_neg hk0, if_neg hk0]
      exact ih

theorem alookup_map_set_self {l : List (Str × α)} {k : Str} {v : α}
    (h : (alookup l k).isSome) :
    alookup (l.map (fun p => if p.1 = k then (k, v) else p)) k = some v := by
  induction l with
  | nil => simp [alookup] at h
  | cons p rest ih =>
    obtain ⟨k', v'⟩ := p
    by_cases hk : k' = k
    · subst hk
      rw [List.map_cons,
        show (if ((k', v') : Str × α).1 = k' then (k', v) else (k', v')) = (k', v)
          from by simp,
        alookup, if_pos rfl]
    · rw [List.map_cons,
        show (if ((k', v') : Str × α).1 = k then (k, v) else (k', v')) = (k', v')
          from by simp [hk],
        alookup, if_neg hk]
      rw [alookup, if_neg hk] at h
      exact ih h

theorem alookup_map_set_other {l : List (Str × α)} {k k' : Str} {v : α}
    (hne : k' ≠ k) :
    alookup (l.map (fun p => if p.1 = k then (k, v) else p)) k' = alookup l k' := by
  induction l with
  | nil => rfl
  | cons p rest ih =>
    obtain ⟨k0, v0⟩ := p
    by_cases hk0 : k0 = k
    · subst hk0
      rw [List.map_cons,
        show (if ((k0, v0) : Str × α).1 = k0 then (k0, v) else (k0, v0)) = (k0, v)
          from by simp,
        alookup, alookup,
        if_neg (fun hh => hne hh.symm), if_neg (fun hh => hne hh.symm)]
      exact ih
    · rw [List.map_cons,
        show (if ((k0, v0) : Str × α).1 = k then (k, v) else (k0, v0)) = (k0, v0)
          from by simp [hk0],
        alookup, alookup]
      by_cases hk0' : k0 = k'
      · simp [hk0']
      · rw [if_neg hk0', if_neg hk0']
        exact ih

theorem alookup_objSet_self (l : List (Str × α)) (k : Str) (v : α) :
    alookup (objSet l k v) k = some v := by
  rw [objSet]
  by_cases h : (alookup l k).isSome
  · rw [if_pos h]
    exact alookup_map_set_self h
  · rw [if_neg h]
    have hnone : alookup l k = none := by
      cases h2 : alookup l k with
      | none => rfl
      | some v' => rw [h2] at h; simp at h
    rw [alookup_append_right hnone]
    simp [alookup]

theorem alookup_objSet_other (l : List (Str × α)) {k k' : Str} (v : α)
    (hne : k' ≠ k) : alookup (objSet l k v) k' = alookup l k' := by
  rw [objSet]
  by_cases h : (alookup l k).isSome
  · rw [if_pos h]
    exact alookup_map_set_other hne
  · rw [if_neg h]
    rw [alookup_append]
    cases h2 : alookup l k' with
    | some v' => rfl
    | none =>
      rw [alookup, if_neg (show ¬(k = k') from fun hh => hne hh.symm)]
      rfl

theorem alookup_isSome_of_mem {l : List (Str × α)} {k : Str} {v : α}
    (h : (k, v) ∈ l) : (alookup l k).isSome := by
  induction l with
  | nil => simp at h
  | cons p rest ih =>
    obtain ⟨k0, v0⟩ := p
    rw [alookup]
    by_cases hk : k0 = k
    · simp [hk]
    · rw [if_neg hk]
      rcases List.mem_cons.mp h with h1 | h1
      · exact absurd (congrArg Prod.fst h1).symm hk
      · exact ih h1

theorem alookup_mem {l : List (Str × α)} {k : Str} {v : α}
    (h : alookup l k = some v) : (k, v) ∈ l := by
  induction l with
  | nil => simp [alookup] at h
  | cons p rest ih =>
    obtain ⟨k0, v0⟩ := p
    rw [alookup] at h
    by_cases hk : k0 = k
    · subst hk
      rw [if_pos rfl] at h
      cases h
      exact List.mem_cons_self _ _
    · rw [if_neg hk] at h
      exact List.mem_cons_of_mem _ (ih h)

theorem alookup_filter_ne {l : List (Str × α)} {x k : Str} (hk : k ≠ x) :
    alookup (l.filter (fun p => p.1 ≠ x)) k = alookup l k := by
  induction l with
  | nil => rfl
  | cons p rest ih =>
    obtain ⟨k0, v0⟩ := p
    by_cases hk0 : k0 = x
    · subst hk0
      rw [List.filter_cons]
      rw [if_neg (by simp)]
      rw [alookup, if_neg (show ¬(k0 = k) from fun hh => hk hh.symm)]
      exact ih
    · rw [List.filter_cons, if_pos (by simpa using hk0)]
      rw [alookup, alookup]
      by_cases hk0' : k0 = k
      · simp [hk0']
      · rw [if_neg hk0', if_neg hk0']
        exact ih

/-- One conversation tree `{id, title, nodesById, activeNodeId, createdAt,
updatedAt}`. -/
structure Tree where
  id : Str
  title : Str
  nodesById : List (Str × Node)
  activeNodeId : Str
  createdAt : Nat
  updatedAt : Nat
deriving DecidableEq, Repr

/-- The fixed root node id sentinel `"root"`. -/
def rootId : Str := "root".toList

/-- Models `createRootNode` (lines 259-266): the root has no parent, title
`"Root"` and no messages. -/
def createRootNode : Node :=
  { id := rootId, parentId := none, title := "Root".toList, messages := [] }

/-- Models `createTree` (lines 270-280); the effects `crypto.randomUUID()` and
`Date.now()` are passed in as `freshId` and `now`. -/
def createTree (freshId title : Str) (now : Nat) : Tree :=
  { id := freshId, title := title, nodesById := [(rootId, createRootNode)],
    activeNodeId := rootId, createdAt := now, updatedAt := now }

/-- The React state pair `treesById` / `activeTreeId`. -/
structure TreesState where
  treesById : List (Str × Tree)
  activeTreeId : Str
deriving DecidableEq, Repr

/-- Stable insertion step for the ascending `createdAt` sort. -/
def insertByCreatedAt (t : Tree) : List Tree → List Tree
  | [] => [t]
  | u :: rest =>
    if t.createdAt ≤ u.createdAt then t :: u :: rest
    else u :: insertByCreatedAt t rest

/-- Stable ascending sort by `createdAt` (the comparator
`(a, b) => a.createdAt - b.createdAt` of `Array.prototype.sort`). -/
def sortByCreatedAt : List Tree → List Tree
  | [] => []
  | t :: rest => insertByCreatedAt t (sortByCreatedAt rest)

/-- Models the derived `treeList`: `Object.values(treesById)` sorted ascending
by `createdAt`. -/
def treeList (st : TreesState) : List Tree :=
  sortByCreatedAt (st.treesById.map Prod.snd)

theorem mem_insertByCreatedAt {x t : Tree} {l : List Tree} :
    x ∈ insertByCreatedAt t l ↔ x = t ∨ x ∈ l := by
  induction l with
  | nil => simp [insertByCreatedAt]
  | cons u rest ih =>
    rw [insertByCreatedAt]
    by_cases h : t.createdAt ≤ u.createdAt
    · rw [if_pos h]
      simp
    · rw [if_neg h]
      simp only [List.mem_cons, ih]
      tauto

theorem mem_sortByCreatedAt {x : Tree} {l : List Tree} :
    x ∈ sortByCreatedAt l ↔ x ∈ l := by
  induction l with
  | nil => simp [sortByCreatedAt]
  | cons t rest ih =>
    rw [sortByCreatedAt, mem_insertByCreatedAt, ih]
    simp

/-! ## Tree Store mutations (`App.jsx` lines 608-727 and 945-962) -/

/-- Models `updateTree` (lines 608-616). The reference-equality short-circuit
`next === tree` is embedded as value equality. -/
def updateTree (st : TreesState) (treeId : Str) (updater : Tree → Tree) : TreesState :=
  match alookup st.treesById treeId with
  | none => st
  | some tree =>
    if updater tree = tree then st
    else { st with treesById := objSet st.treesById treeId (updater tree) }

/-- Models `updateTreeNodes` (lines 618-633): on a real change it installs the
new node map and stamps `updatedAt` with `Date.now()` (passed in as `now`). -/
def updateTreeNodes (st : TreesState) (treeId : Str) (now : Nat)
    (updater : List (Str × Node) → List (Str × Node)) : TreesState :=
  match alookup st.treesById treeId with
  | none => st
  | some tree =>
    if updater tree.nodesById = tree.nodesById then st
    else
      { st with
        treesById := objSet st.treesById treeId
          { tree with nodesById := updater tree.nodesById, updatedAt := now } }

/-- Models `updateNodeMessages` (lines 635-647). -/
def updateNodeMessages (st : TreesState) (treeId nodeId : Str) (now : Nat)
    (updater : List Message → List Message) : TreesState :=
  updateTreeNodes st treeId now (fun prevNodes =>
    match alookup prevNodes nodeId with
    | none => prevNodes
    | some node => objSet prevNodes nodeId { node with messages := updater node.messages })

/-- Models `updateNode` (lines 649-657). -/
def updateNode (st : TreesState) (treeId nodeId : Str) (now : Nat)
    (updater : Node → Node) : TreesState :=
  updateTreeNodes st treeId now (fun prevNodes =>
    match alookup prevNodes nodeId with
    | none => prevNodes
    | some node =>
      if updater node = node then prevNodes
      else objSet prevNodes nodeId (updater node))

/-- Models `setActiveNodeId` (lines 659-661): update the active tree's
`activeNodeId`; note it goes through `updateTree`, not `updateTreeNodes`. -/
def setActiveNodeId (st : TreesState) (nodeId : Str) : TreesState :=
  updateTree st st.activeTreeId (fun tree => { tree with activeNodeId := nodeId })

/-- Models `addNode` (lines 945-962), with the `extra` spread expanded into
the branch fields and `crypto.randomUUID()` passed in as `newId`. -/
def addNode (st : TreesState) (treeId newId : Str) (parentId : Option Str)
    (title : Str) (messages : List Message) (bc : Option BranchContext)
    (status : RequestStatus) (unread : Bool) (activate : Bool) (now : Nat) :
    TreesState :=
  let st1 := updateTreeNodes st treeId now (fun prev =>
    objSet prev newId
      { id := newId, parentId := parentId, title := title, messages := messages,
        branchContext := bc, requestStatus := status, hasUnread := unread })
  if activate then updateTree st1 treeId (fun tree => { tree with activeNodeId := newId })
  else st1

/-- Models `deleteTree` (lines 700-727) after the user confirms; the fresh
tree's `crypto.randomUUID()` and `Date.now()` are passed in as arguments. -/
def deleteTree (st : TreesState) (treeId freshId : Str) (now : Nat) : TreesState :=
  match alookup st.treesById treeId with
  | none => st
  | some _ =>
    match (treeList st).filter (fun t => t.id ≠ treeId) with
    | [] =>
      { treesById := [(freshId, createTree freshId "New Tree".toList now)],
        activeTreeId := freshId }
    | r0 :: _ =>
      { treesById := st.treesById.filter (fun p => p.1 ≠ treeId),
        activeTreeId := if st.activeTreeId = treeId then r0.id else st.activeTreeId }

/-! ## Branch orchestrator node updates (`App.jsx` lines 1087-1205, 933-943) -/

/-- Models `normalizeGeneratedTitle` (lines 37-44): collapse whitespace, trim,
split into words, keep the first 4. -/
def normalizeGeneratedTitle (title fallback : Str) : Str :=
  if trimWs (collapseWs title) = [] then fallback
  else
    if (splitOnChar ' ' (trimWs (collapseWs title))).filter (· ≠ ([] : Str)) = []
    then fallback
    else joinSep " ".toList
      (((splitOnChar ' ' (trimWs (collapseWs title))).filter (· ≠ ([] : Str))).take 4)

/-- The node `handleBranchSend` creates for a new branch (lines 1098-1113):
status `pending`, unread `false`, with the excerpt as `branchContext`. -/
def createBranchNode (newNodeId sourceNodeId title userMessage excerpt : Str)
    (now : Nat) : Node :=
  { id := newNodeId, parentId := some sourceNodeId, title := title,
    messages := [{ role := "user".toList, content := userMessage }],
    branchContext := some
      { excerpt := excerpt, sourceNodeId := sourceNodeId, createdAt := now },
    requestStatus := .pending, hasUnread := false }

/-- The node updater applied when the branch reply succeeds (lines 1193-1197). -/
def replySuccessUpdate (node : Node) : Node :=
  { node with requestStatus := .ready, hasUnread := true }

/-- The node updater applied when the branch reply fails (lines 1200-1203). -/
def replyFailureUpdate (node : Node) : Node :=
  { node with requestStatus := .idle }

/-- The read-reset updater the `useEffect` on lines 933-943 applies to the
node that became active. -/
def readResetUpdate (node : Node) : Node :=
  if node.hasUnread then
    { node with
      hasUnread := false
      requestStatus :=
        if node.requestStatus = .ready then .idle else node.requestStatus }
  else node

/-- The node updater run when the branch title request succeeds
(lines 1181-1186): the normalized title is written with no placeholder check. -/
def branchTitleSuccessUpdate (title : Str) (node : Node) : Node :=
  { node with title := normalizeGeneratedTitle title "...".toList }

/-- Claim C1: a branch node is created with `requestStatus = pending` (and not
unread); a successful reply makes it `ready` with `hasUnread = true`; a failed
reply makes it `idle` — never `ready` — leaving `hasUnread` untouched; when
the node becomes the active node the read-reset takes `ready` back to `idle`
and clears `hasUnread`, and performs no other status change: its effect is
exactly `ready ↦ idle` when unread, identity otherwise. These four updaters
are the only writers of `requestStatus`/`hasUnread` in the source. -/
theorem claim_C1_branch_status_machine
    (newNodeId sourceNodeId title userMessage excerpt : Str) (now : Nat)
    (node : Node) :
    (createBranchNode newNodeId sourceNodeId title userMessage excerpt now).requestStatus
        = .pending
      ∧ (createBranchNode newNodeId sourceNodeId title userMessage excerpt now).hasUnread
        = false
      ∧ (replySuccessUpdate node).requestStatus = .ready
      ∧ (replySuccessUpdate node).hasUnread = true
      ∧ (replyFailureUpdate node).requestStatus = .idle
      ∧ (replyFailureUpdate node).requestStatus ≠ .ready
      ∧ (replyFailureUpdate node).hasUnread = node.hasUnread
      ∧ (readResetUpdate (replySuccessUpdate node)).requestStatus = .idle
      ∧ (readResetUpdate (replySuccessUpdate node)).hasUnread = false
      ∧ ((readResetUpdate node).requestStatus
          = if node.hasUnread = true ∧ node.requestStatus = .ready then .idle
            else node.requestStatus)
      ∧ (readResetUpdate node).hasUnread = false
      ∧ (readResetUpdate node).messages = node.messages := by
  refine ⟨rfl, rfl, rfl, rfl, rfl, by simp [replyFailureUpdate], rfl,
    by simp [readResetUpdate, replySuccessUpdate],
    by simp [readResetUpdate, replySuccessUpdate], ?_, ?_, ?_⟩
  · by_cases h1 : node.hasUnread
    · by_cases h2 : node.requestStatus = .ready
      · simp [readResetUpdate, h1, h2]
      · simp [readResetUpdate, h1, h2]
    · simp [readResetUpdate, h1]
  · by_cases h1 : node.hasUnread
    · simp [readResetUpdate, h1]
    · simp [readResetUpdate, h1]
  · by_cases h1 : node.hasUnread
    · simp [readResetUpdate, h1]
    · simp [readResetUpdate, h1]

/-- Claim C9 (as stated) is refuted by `setActiveNode`: on a concrete store,
switching the active node succeeds (the tree's `activeNodeId` changes) yet the
owning tree's `updatedAt` stays `100`. -/
theorem claim_C9_counterexample :
    alookup
        (setActiveNodeId
          { treesById :=
              [("t1".toList,
                { id := "t1".toList, title := "Tree".toList,
                  nodesById := [(rootId, createRootNode)],
                  activeNodeId := rootId, createdAt := 5, updatedAt := 100 })],
            activeTreeId := "t1".toList }
          "n1".toList).treesById
        "t1".toList
      = some
        { id := "t1".toList, title := "Tree".toList,
          nodesById := [(rootId, createRootNode)],
          activeNodeId := "n1".toList, createdAt := 5, updatedAt := 100 } := by
  decide

/-- Claim C9 (amended): node-map mutations (`updateNode`, `updateNodeMessages`
and node creation all route through `updateTreeNodes`, which) stamp the owning
tree's `updatedAt` with the mutation time whenever they actually change the
node map, and leave every other tree and every other node untouched (pure
functional update, no in-place mutation); `setActiveNode`, however, only
rewrites `activeNodeId` and leaves the owning tree's `updatedAt`, `title` and
`nodesById` unchanged. -/
theorem claim_C9_updatedAt_behavior (st : TreesState) (treeId nodeId n : Str)
    (now : Nat) (f : List (Str × Node) → List (Str × Node)) (g : Node → Node)
    (tree atree : Tree) (node : Node)
    (htree : alookup st.treesById treeId = some tree)
    (hnode : alookup tree.nodesById nodeId = some node)
    (hatree : alookup st.treesById st.activeTreeId = some atree)
    (hchange : f tree.nodesById ≠ tree.nodesById)
    (hgchange : g node ≠ node) :
    (alookup (updateTreeNodes st treeId now f).treesById treeId
        = some { tree with nodesById := f tree.nodesById, updatedAt := now }
      ∧ ∀ k, k ≠ treeId →
          alookup (updateTreeNodes st treeId now f).treesById k
            = alookup st.treesById k)
    ∧ (∃ tree',
        alookup (updateNode st treeId nodeId now g).treesById treeId = some tree'
          ∧ tree'.updatedAt = now
          ∧ alookup tree'.nodesById nodeId = some (g node)
          ∧ ∀ k, k ≠ nodeId →
              alookup tree'.nodesById k = alookup tree.nodesById k)
    ∧ (∃ tree',
        alookup (setActiveNodeId st n).treesById st.activeTreeId = some tree'
          ∧ tree'.activeNodeId = n
          ∧ tree'.updatedAt = atree.updatedAt
          ∧ tree'.title = atree.title
          ∧ tree'.nodesById = atree.nodesById) := by
  refine ⟨⟨?_, ?_⟩, ?_, ?_⟩
  · simp only [updateTreeNodes, htree]
    rw [if_neg hchange]
    exact alookup_objSet_self _ _ _
  · intro k hk
    simp only [updateTreeNodes, htree]
    rw [if_neg hchange]
    exact alookup_objSet_other _ _ hk
  · have hFval : (fun prevNodes =>
        match alookup prevNodes nodeId with
        | none => prevNodes
        | some node0 =>
          if g node0 = node0 then prevNodes
          else objSet prevNodes nodeId (g node0)) tree.nodesById
        = objSet tree.nodesById nodeId (g node) := by
      simp only [hnode]
      rw [if_neg hgchange]
    have hne : objSet tree.nodesById nodeId (g node) ≠ tree.nodesById := by
      intro heq
      have h1 := alookup_objSet_self tree.nodesById nodeId (g node)
      rw [heq, hnode] at h1
      injection h1 with h2
      exact hgchange h2.symm
    refine ⟨{ tree with
        nodesById := objSet tree.nodesById nodeId (g node)
        updatedAt := now }, ?_, rfl, ?_, ?_⟩
    · simp only [updateNode, updateTreeNodes, htree, hFval]
      rw [if_neg hne]
      exact alookup_objSet_self _ _ _
    · exact alookup_objSet_self _ _ _
    · intro k hk
      exact alookup_objSet_other _ _ hk
  · simp only [setActiveNodeId, updateTree, hatree]
    by_cases hchg : ({ atree with activeNodeId := n } : Tree) = atree
    · rw [if_pos hchg]
      refine ⟨atree, hatree, ?_, rfl, rfl, rfl⟩
      have := congrArg Tree.activeNodeId hchg
      simpa using this.symm
    · rw [if_neg hchg]
      exact ⟨{ atree with activeNodeId := n }, alookup_objSet_self _ _ _,
        rfl, rfl, rfl, rfl⟩

/-- Example store used to witness claim C9 at concrete inputs. -/
def exNodeC9 : Node :=
  { id := "n1".toList, parentId := some rootId, title := "...".toList,
    messages := [{ role := "user".toList, content := "hi".toList }] }

/-- Example store used to witness claim C9 at concrete inputs. -/
def exTreeC9 : Tree :=
  { id := "t1".toList, title := "Tree".toList,
    nodesById := [(rootId, createRootNode), ("n1".toList, exNodeC9)],
    activeNodeId := rootId, createdAt := 5, updatedAt := 100 }

/-- Example store used to witness claim C9 at concrete inputs. -/
def exStateC9 : TreesState :=
  { treesById := [("t1".toList, exTreeC9)], activeTreeId := "t1".toList }

/-- Witness for the amended claim C9 at a concrete store. -/
theorem claim_C9_updatedAt_behavior_witness :
    ∃ tree',
      alookup (updateNode exStateC9 "t1".toList "n1".toList 200
          replySuccessUpdate).treesById "t1".toList = some tree'
        ∧ tree'.updatedAt = 200
        ∧ alookup tree'.nodesById "n1".toList = some (replySuccessUpdate exNodeC9)
        ∧ ∀ k, k ≠ "n1".toList →
            alookup tree'.nodesById k = alookup exTreeC9.nodesById k :=
  (claim_C9_updatedAt_behavior exStateC9 "t1".toList "n1".toList rootId 200
    (fun prev => prev ++ [("n2".toList, createRootNode)]) replySuccessUpdate
    exTreeC9 exTreeC9 exNodeC9 (by decide) (by decide) (by decide) (by decide)
    (by decide)).2.1

/-- Keys of the `treesById` object agree with each tree's `id` field — true of
every store the app constructs (`{ [tree.id]: tree }` everywhere). -/
def WellKeyed (st : TreesState) : Prop :=
  ∀ p ∈ st.treesById, (p.2 : Tree).id = p.1

/-- The Tree Store invariant: at least one tree, an active id that resolves to
a tree, and id-consistent keys. -/
def StoreInvariant (st : TreesState) : Prop :=
  st.treesById ≠ [] ∧ (alookup st.treesById st.activeTreeId).isSome ∧ WellKeyed st

/-- Claim C2: `deleteTree` preserves the store invariant for every store that
satisfies it and every tree id — afterwards at least one tree remains and the
active tree id references an existing tree; in particular, when the deleted
tree was the only one, a fresh empty tree (a single root node with no
messages) is synthesized and made active in the same update. -/
theorem claim_C2_delete_tree_invariant (st : TreesState) (treeId freshId : Str)
    (now : Nat) (hinv : StoreInvariant st) :
    StoreInvariant (deleteTree st treeId freshId now)
      ∧ ((alookup st.treesById treeId).isSome →
          (treeList st).filter (fun t => t.id ≠ treeId) = [] →
          deleteTree st treeId freshId now
              = { treesById := [(freshId, createTree freshId "New Tree".toList now)],
                  activeTreeId := freshId }
            ∧ (createTree freshId "New Tree".toList now).nodesById
              = [(rootId, createRootNode)]
            ∧ createRootNode.messages = []) := by
  obtain ⟨hne, hact, hkeys⟩ := hinv
  cases hlook : alookup st.treesById treeId with
  | none =>
    constructor
    · simp only [deleteTree, hlook]
      exact ⟨hne, hact, hkeys⟩
    · intro hsome _
      simp at hsome
  | some t =>
    cases hrem : (treeList st).filter (fun t => t.id ≠ treeId) with
    | nil =>
      constructor
      · simp only [deleteTree, hlook, hrem]
        refine ⟨by simp, ?_, ?_⟩
        · rw [alookup, if_pos rfl]
          rfl
        · intro p hp
          rcases List.mem_singleton.mp hp with rfl
          rfl
      · intro _ _
        refine ⟨?_, rfl, rfl⟩
        have hrem' : List.filter (fun t => !decide (t.id = treeId)) (treeList st)
            = [] := by simpa using hrem
        simp [deleteTree, hlook, hrem']
    | cons r0 rest =>
      have hr0 : r0 ∈ (treeList st).filter (fun t => t.id ≠ treeId) := by
        rw [hrem]
        exact List.mem_cons_self _ _
      have hr0' := List.mem_filter.mp hr0
      have hr0ne : r0.id ≠ treeId := by simpa using hr0'.2
      have hr0mem : r0 ∈ st.treesById.map Prod.snd := by
        have := hr0'.1
        rw [treeList] at this
        exact mem_sortByCreatedAt.mp this
      obtain ⟨p, hpmem, hpeq⟩ := List.mem_map.mp hr0mem
      have hpkey : p.1 = r0.id := by
        have := hkeys p hpmem
        rw [hpeq] at this
        exact this.symm
      have hpair : (r0.id, r0) ∈ st.treesById := by
        have : p = (r0.id, r0) := by
          obtain ⟨pk, pv⟩ := p
          simp only at hpkey hpeq
          rw [hpkey, hpeq]
        rw [this] at hpmem
        exact hpmem
      have hpairf : (r0.id, r0) ∈ st.treesById.filter (fun p => p.1 ≠ treeId) := by
        rw [List.mem_filter]
        exact ⟨hpair, by simpa using hr0ne⟩
      constructor
      · simp only [deleteTree, hlook, hrem]
        refine ⟨List.ne_nil_of_mem hpairf, ?_, ?_⟩
        · by_cases hacteq : st.activeTreeId = treeId
          · rw [if_pos hacteq]
            exact alookup_isSome_of_mem hpairf
          · rw [if_neg hacteq]
            rw [alookup_filter_ne hacteq]
            exact hact
        · intro q hq
          exact hkeys q (List.mem_of_mem_filter hq)
      · intro _ hnil
        simp at hnil

/-- Witness for claim C2: deleting the only tree of a concrete store leaves a
store satisfying the invariant, with a fresh single-root tree made active. -/
theorem claim_C2_delete_tree_invariant_witness :
    StoreInvariant
        (deleteTree
          { treesById := [("t1".toList, createTree "t1".toList "My Tree".toList 5)],
            activeTreeId := "t1".toList }
          "t1".toList "t2".toList 9)
      ∧ deleteTree
            { treesById := [("t1".toList, createTree "t1".toList "My Tree".toList 5)],
              activeTreeId := "t1".toList }
            "t1".toList "t2".toList 9
          = { treesById := [("t2".toList, createTree "t2".toList "New Tree".toList 9)],
              activeTreeId := "t2".toList } := by
  have h := claim_C2_delete_tree_invariant
    { treesById := [("t1".toList, createTree "t1".toList "My Tree".toList 5)],
      activeTreeId := "t1".toList }
    "t1".toList "t2".toList 9
    ⟨by decide, by decide, by unfold WellKeyed; decide⟩
  exact ⟨h.1, (h.2 (by decide) (by decide)).1⟩

/-! ## Persisted storage (`App.jsx` lines 268, 282-306, 874-882) -/

/-- A parsed persisted payload `{version, treesById, activeTreeId}`. `none` in
`version`/`activeTreeId` models a missing or falsy field; `none` in
`treesById` models a missing or non-object field. -/
structure StoredPayload where
  version : Option Int
  treesById : Option (List (Str × Tree))
  activeTreeId : Option Str
deriving DecidableEq

/-- Models `loadTreesFromStorage` (lines 282-299); `raw = none` covers an
absent blob and a `JSON.parse` failure (the `try/catch` returns `null`). -/
def loadTreesFromStorage (raw : Option StoredPayload) : Option TreesState :=
  match raw with
  | none => none
  | some parsed =>
    if parsed.version ≠ some 1 then none
    else
      match parsed.treesById with
      | none => none
      | some ts =>
        match ts with
        | [] => none
        | (k0, _) :: _ =>
          some
            { treesById := ts
              activeTreeId :=
                match parsed.activeTreeId with
                | some a => if (alookup ts a).isSome then a else k0
                | none => k0 }

/-- Models `createInitialTreeState` (lines 301-306): fall back to a fresh
default tree when nothing loads. -/
def createInitialTreeState (raw : Option StoredPayload) (freshId : Str)
    (now : Nat) : TreesState :=
  match loadTreesFromStorage raw with
  | some loaded => loaded
  | none =>
    { treesById := [(freshId, createTree freshId "New Tree".toList now)],
      activeTreeId := freshId }

/-- Claim C8: a payload whose version is not 1, whose `treesById` is missing
or malformed, or which holds zero trees is treated as absent; in each case the
initial state is a synthesized fresh default tree, and no error is raised (the
embedding is total, mirroring the `try/catch`). -/
theorem claim_C8_load_fallback (p : StoredPayload) (freshId : Str) (now : Nat)
    (hbad : p.version ≠ some 1 ∨ p.treesById = none ∨ p.treesById = some []) :
    loadTreesFromStorage (some p) = none
      ∧ createInitialTreeState (some p) freshId now
        = { treesById := [(freshId, createTree freshId "New Tree".toList now)],
            activeTreeId := freshId }
      ∧ loadTreesFromStorage none = none := by
  have hload : loadTreesFromStorage (some p) = none := by
    rw [loadTreesFromStorage]
    by_cases hv : p.version ≠ some 1
    · rw [if_pos hv]
    · rw [if_neg hv]
      rcases hbad with h | h | h
      · exact absurd h hv
      · rw [h]
      · rw [h]
  refine ⟨hload, ?_, rfl⟩
  rw [createInitialTreeState, hload]

/-- Witness for claim C8 at a concrete payload with a wrong version. -/
theorem claim_C8_load_fallback_witness :
    loadTreesFromStorage (some ⟨some 2, none, none⟩) = none
      ∧ createInitialTreeState (some ⟨some 2, none, none⟩) "f1".toList 7
        = { treesById := [("f1".toList, createTree "f1".toList "New Tree".toList 7)],
            activeTreeId := "f1".toList } := by
  have h := claim_C8_load_fallback ⟨some 2, none, none⟩ "f1".toList 7
    (Or.inl (by decide))
  exact ⟨h.1, h.2.1⟩

/-! ## Ancestor path walk (`App.jsx` lines 338-348) -/

/-- Loop body of `getNodePathToRoot`: while the current id is truthy, resolves
to a node, and is unvisited, mark it visited, push it, and follow `parentId`.
The `while` loop is given a fuel parameter; `m.length + 1` fuel provably
suffices because every iteration visits a distinct key of the map. -/
def pathGo (m : List (Str × Node)) :
    Nat → Option Str → List Str → List Str → List Str
  | 0, _, _, path => path
  | fuel + 1, cur, visited, path =>
    match cur with
    | none => path
    | some c =>
      match alookup m c with
      | none => path
      | some node =>
        if c ∈ visited then path
        else pathGo m fuel node.parentId (visited ++ [c]) (path ++ [c])

/-- Models `getNodePathToRoot`: run the loop from the queried node with empty
visited set and path, then reverse (root end first). -/
def getNodePathToRoot (nodeId : Str) (m : List (Str × Node)) : List Str :=
  (pathGo m (m.length + 1) (some nodeId) [] []).reverse

theorem mem_keys_of_alookup_isSome {l : List (Str × α)} {k : Str}
    (h : (alookup l k).isSome) : k ∈ l.map Prod.fst := by
  induction l with
  | nil => simp [alookup] at h
  | cons p rest ih =>
    obtain ⟨k0, v0⟩ := p
    rw [alookup] at h
    by_cases hk : k0 = k
    · rw [List.map_cons, hk]
      exact List.mem_cons_self _ _
    · rw [if_neg hk] at h
      simp only [List.map_cons, List.mem_cons]
      exact Or.inr (ih h)

theorem nodup_subset_length_le {l keys : List Str} (hnd : l.Nodup)
    (hkeysnd : keys.Nodup) (hsub : ∀ v ∈ l, v ∈ keys) :
    l.length ≤ keys.length := by
  have h1 : l.toFinset.card = l.length := List.toFinset_card_of_nodup hnd
  have h2 : keys.toFinset.card = keys.length := List.toFinset_card_of_nodup hkeysnd
  have h3 : l.toFinset ⊆ keys.toFinset := by
    intro x hx
    rw [List.mem_toFinset] at hx ⊢
    exact hsub x hx
  have := Finset.card_le_card h3
  omega

/-- The stop condition of the walk: the last pushed element's parent is
absent (`null`), unresolvable, or already on the path. -/
def pathStopOK (m : List (Str × Node)) (res : List Str) : Prop :=
  res = [] ∨ ∃ l nl, res.getLast? = some l ∧ alookup m l = some nl ∧
    (nl.parentId = none ∨ ∃ pid, nl.parentId = some pid ∧
      (alookup m pid = none ∨ pid ∈ res))

theorem pathGo_spec (m : List (Str × Node)) :
    ∀ fuel (cur : Option Str) (path : List Str),
      path.Nodup →
      (∀ v ∈ path, (alookup m v).isSome) →
      (m.map Prod.fst).dedup.length - path.length < fuel →
      (path = [] ∨ ∃ l nl, path.getLast? = some l ∧ alookup m l = some nl ∧
        nl.parentId = cur) →
      ∃ ext, pathGo m fuel cur path path = path ++ ext
        ∧ (path ++ ext).Nodup
        ∧ (∀ v ∈ path ++ ext, (alookup m v).isSome)
        ∧ pathStopOK m (path ++ ext) := by
  intro fuel
  induction fuel with
  | zero =>
    intro cur path _ _ hbound _
    exact absurd hbound (Nat.not_lt_zero _)
  | succ fuel ih =>
    intro cur path hnd hsome hbound hlink
    cases cur with
    | none =>
      refine ⟨[], by simp [pathGo], by simpa using hnd, by simpa using hsome, ?_⟩
      rcases hlink with h | ⟨l, nl, hlast, hl, hpar⟩
      · exact Or.inl (by simpa using h)
      · exact Or.inr ⟨l, nl, by simpa using hlast, hl, Or.inl hpar⟩
    | some c =>
      cases hc : alookup m c with
      | none =>
        refine ⟨[], ?_, by simpa using hnd, by simpa using hsome, ?_⟩
        · rw [pathGo, hc]
          simp
        · rcases hlink with h | ⟨l, nl, hlast, hl, hpar⟩
          · exact Or.inl (by simpa using h)
          · exact Or.inr ⟨l, nl, by simpa using hlast, hl,
              Or.inr ⟨c, hpar, Or.inl hc⟩⟩
      | some node =>
        by_cases hmem : c ∈ path
        · refine ⟨[], ?_, by simpa using hnd, by simpa using hsome, ?_⟩
          · rw [pathGo, hc]
            simp only [if_pos hmem]
            simp
          · rcases hlink with h | ⟨l, nl, hlast, hl, hpar⟩
            · subst h
              simp at hmem
            · exact Or.inr ⟨l, nl, by simpa using hlast, hl,
                Or.inr ⟨c, hpar, Or.inr (by simpa using hmem)⟩⟩
        · have hnd' : (path ++ [c]).Nodup := by
            rw [List.nodup_append]
            refine ⟨hnd, List.nodup_singleton c, ?_⟩
            intro x hx hxc
            rw [List.mem_singleton] at hxc
            subst hxc
            exact hmem hx
          have hsome' : ∀ v ∈ path ++ [c], (alookup m v).isSome := by
            intro v hv
            rcases List.mem_append.mp hv with h | h
            · exact hsome v h
            · rw [List.mem_singleton] at h
              subst h
              rw [hc]
              rfl
          have hsub : ∀ v ∈ path ++ [c], v ∈ (m.map Prod.fst).dedup := by
            intro v hv
            rw [List.mem_dedup]
            exact mem_keys_of_alookup_isSome (hsome' v hv)
          have hlen : (path ++ [c]).length ≤ (m.map Prod.fst).dedup.length :=
            nodup_subset_length_le hnd' (List.nodup_dedup _) hsub
          have hbound' : (m.map Prod.fst).dedup.length - (path ++ [c]).length
              < fuel := by
            simp only [List.length_append, List.length_singleton] at hlen ⊢
            omega
          have hlink' : path ++ [c] = [] ∨ ∃ l nl,
              (path ++ [c]).getLast? = some l ∧ alookup m l = some nl ∧
                nl.parentId = node.parentId := by
            refine Or.inr ⟨c, node, ?_, hc, rfl⟩
            rw [List.getLast?_concat]
          obtain ⟨ext', heq, hnd2, hsome2, hstop2⟩ :=
            ih node.parentId (path ++ [c]) hnd' hsome' hbound' hlink'
          refine ⟨[c] ++ ext', ?_, ?_, ?_, ?_⟩
          · rw [pathGo, hc]
            simp only [if_neg hmem]
            rw [heq]
            simp
          · rw [← List.append_assoc]
            exact hnd2
          · rw [← List.append_assoc]
            exact hsome2
          · rw [← List.append_assoc]
            exact hstop2

theorem getNodePathToRoot_props (m : List (Str × Node)) (nodeId : Str)
    (node : Node) (h : alookup m nodeId = some node) :
    getNodePathToRoot nodeId m ≠ []
      ∧ (getNodePathToRoot nodeId m).Nodup
      ∧ (getNodePathToRoot nodeId m).length ≤ m.length
      ∧ (getNodePathToRoot nodeId m).getLast? = some nodeId
      ∧ ∃ h0 n0, (getNodePathToRoot nodeId m).head? = some h0
          ∧ alookup m h0 = some n0
          ∧ (n0.parentId = none
              ∨ ∃ pid, n0.parentId = some pid
                  ∧ (alookup m pid = none ∨ pid ∈ getNodePathToRoot nodeId m)) := by
  have hkey : nodeId ∈ (m.map Prod.fst).dedup := by
    rw [List.mem_dedup]
    exact mem_keys_of_alookup_isSome (by rw [h]; rfl)
  have hkeylen : 1 ≤ (m.map Prod.fst).dedup.length :=
    List.length_pos.mpr (List.ne_nil_of_mem hkey)
  have hdedup_le : (m.map Prod.fst).dedup.length ≤ m.length := by
    have h1 := (List.dedup_sublist (m.map Prod.fst)).length_le
    simpa using h1
  have hstep : pathGo m (m.length + 1) (some nodeId) [] []
      = pathGo m m.length node.parentId [nodeId] [nodeId] := by
    rw [pathGo, h]
    simp
  obtain ⟨ext, heq, hnd, hsome, hstop⟩ :=
    pathGo_spec m m.length node.parentId [nodeId]
      (List.nodup_singleton _)
      (by intro v hv; rw [List.mem_singleton] at hv; subst hv; rw [h]; rfl)
      (by simp only [List.length_singleton]; omega)
      (Or.inr ⟨nodeId, node, rfl, h, rfl⟩)
  have hres : getNodePathToRoot nodeId m
      = ((nodeId :: ext) : List Str).reverse := by
    rw [getNodePathToRoot, hstep, heq]
    rfl
  have hsub : ∀ v ∈ nodeId :: ext, v ∈ (m.map Prod.fst).dedup := by
    intro v hv
    rw [List.mem_dedup]
    exact mem_keys_of_alookup_isSome (hsome v (by simpa using hv))
  have hnd1 : (nodeId :: ext).Nodup := by simpa using hnd
  refine ⟨?_, ?_, ?_, ?_, ?_⟩
  · rw [hres]
    simp
  · rw [hres]
    exact List.nodup_reverse.mpr hnd1
  · rw [hres]
    rw [List.length_reverse]
    calc (nodeId :: ext).length ≤ (m.map Prod.fst).dedup.length :=
          nodup_subset_length_le hnd1 (List.nodup_dedup _) hsub
      _ ≤ m.length := hdedup_le
  · rw [hres, List.getLast?_reverse]
    rfl
  · rcases hstop with hnil | ⟨l, nl, hlast, hl, hpar⟩
    · exact absurd hnil (by simp)
    · refine ⟨l, nl, ?_, hl, ?_⟩
      · rw [hres, List.head?_reverse]
        simpa using hlast
      · rcases hpar with hnone | ⟨pid, hpid, hcase⟩
        · exact Or.inl hnone
        · refine Or.inr ⟨pid, hpid, ?_⟩
          rcases hcase with h1 | h1
          · exact Or.inl h1
          · refine Or.inr ?_
            rw [hres, List.mem_reverse]
            simpa using h1

/-- Claim C10: for every node map — including malformed ones with parent
cycles or dangling parent references — the ancestor-path walk terminates (the
embedding is total with provably sufficient fuel) and returns a nonempty,
duplicate-free path of length at most the number of map entries, ending at
the queried node and starting from the first reached node whose parent is
null, missing from the map, or already visited. -/
theorem claim_C10_path_walk (m : List (Str × Node)) (nodeId : Str) (node : Node)
    (h : alookup m nodeId = some node) :
    getNodePathToRoot nodeId m ≠ []
      ∧ (getNodePathToRoot nodeId m).Nodup
      ∧ (getNodePathToRoot nodeId m).length ≤ m.length
      ∧ (getNodePathToRoot nodeId m).getLast? = some nodeId
      ∧ ∃ h0 n0, (getNodePathToRoot nodeId m).head? = some h0
          ∧ alookup m h0 = some n0
          ∧ (n0.parentId = none
              ∨ ∃ pid, n0.parentId = some pid
                  ∧ (alookup m pid = none ∨ pid ∈ getNodePathToRoot nodeId m)) :=
  getNodePathToRoot_props m nodeId node h

/-- Malformed cyclic map used to witness claim C10: `a`'s parent is `b` and
`b`'s parent is `a`. -/
def exNodeC10a : Node :=
  { id := "a".toList, parentId := some "b".toList, title := "A".toList, messages := [] }

/-- Malformed cyclic map used to witness claim C10. -/
def exNodeC10b : Node :=
  { id := "b".toList, parentId := some "a".toList, title := "B".toList, messages := [] }

/-- Malformed cyclic map used to witness claim C10. -/
def exMapC10 : List (Str × Node) :=
  [("a".toList, exNodeC10a), ("b".toList, exNodeC10b)]

/-- Witness for claim C10 on a concrete map whose parent references form a
cycle: the walk still terminates with a duplicate-free bounded path. -/
theorem claim_C10_path_walk_witness :
    getNodePathToRoot "a".toList exMapC10 ≠ []
      ∧ (getNodePathToRoot "a".toList exMapC10).Nodup
      ∧ (getNodePathToRoot "a".toList exMapC10).length ≤ exMapC10.length
      ∧ (getNodePathToRoot "a".toList exMapC10).getLast? = some "a".toList
      ∧ ∃ h0 n0, (getNodePathToRoot "a".toList exMapC10).head? = some h0
          ∧ alookup exMapC10 h0 = some n0
          ∧ (n0.parentId = none
              ∨ ∃ pid, n0.parentId = some pid
                  ∧ (alookup exMapC10 pid = none
                      ∨ pid ∈ getNodePathToRoot "a".toList exMapC10)) :=
  claim_C10_path_walk exMapC10 "a".toList exNodeC10a (by decide)

/-! ## Context Builder (`App.jsx` lines 331-392) -/

/-- Models `truncateForContext` (lines 331-336): collapse whitespace, trim,
and cut to `maxChars` characters with a one-character ellipsis when over. -/
def truncateForContext (text : Str) (maxChars : Nat) : Str :=
  if (trimWs (collapseWs text)).length ≤ maxChars then trimWs (collapseWs text)
  else (trimWs (collapseWs text)).take (maxChars - 1) ++ ['…']

/-- The breadcrumb rendering of one path entry (lines 355-364): the queried
node itself renders as the placeholder `"."` unless it is the root; otherwise
the node's title, with `"Root"` as fallback for the root and nothing for
missing nodes or empty titles. -/
def breadcrumbEntry (m : List (Str × Node)) (pathLen index : Nat) (id : Str) :
    Option Str :=
  if index = pathLen - 1 ∧ id ≠ rootId then some ".".toList
  else
    match alookup m id with
    | some n =>
      if n.title ≠ [] then some n.title
      else if id = rootId then some "Root".toList else none
    | none => if id = rootId then some "Root".toList else none

/-- The joined breadcrumb `Branch path` string. -/
def breadcrumbOf (nodeId : Str) (m : List (Str × Node)) : Str :=
  joinSep " > ".toList
    ((getNodePathToRoot nodeId m).enum.filterMap
      (fun p => breadcrumbEntry m (getNodePathToRoot nodeId m).length p.1 p.2))

/-- The fixed first line of the hidden context. -/
def headerLine : Str :=
  "Hidden context for the assistant (do not repeat verbatim unless asked):".toList

/-- The excerpt block (line 373), with the excerpt truncated to 1200. -/
def excerptLine (e : Str) : Str :=
  "Branch highlight excerpt:\n\"\"\"".toList ++ truncateForContext e 1200
    ++ "\"\"\"".toList

/-- One ancestor snippet block (lines 379-388): the ancestor's last 4 messages
rendered as `role: content-truncated-to-220`, labeled with its title. -/
def ancestorBlock (a : Node) : Str :=
  "- ".toList ++ a.title ++ ":\n".toList
    ++ joinSep "\n".toList
      ((takeLast 4 a.messages).map
        (fun msg => msg.role ++ ": ".toList ++ truncateForContext msg.content 220))

/-- The list of sections `buildHiddenContextForNode` pushes into `lines`
(lines 366-389) for an existing node. -/
def hiddenContextLines (nodeId : Str) (node : Node) (m : List (Str × Node)) :
    List Str :=
  ([headerLine]
      ++ (if breadcrumbOf nodeId m ≠ [] then
            ["Branch path: ".toList ++ breadcrumbOf nodeId m]
          else []))
    ++ (match node.branchContext with
        | some bc => if bc.excerpt ≠ [] then [excerptLine bc.excerpt] else []
        | none => [])
    ++ (if (getNodePathToRoot nodeId m).dropLast ≠ [] then
          ["Ancestor snippets (most recent turns):".toList]
            ++ (getNodePathToRoot nodeId m).dropLast.filterMap (fun id =>
                match alookup m id with
                | none => none
                | some a =>
                  if takeLast 4 a.messages = [] then none
                  else some (ancestorBlock a))
        else [])

/-- Models `buildHiddenContextForNode` (lines 350-392): the sections joined by
blank lines and trimmed; empty string for a missing node. -/
def buildHiddenContextForNode (nodeId : Str) (m : List (Str × Node)) : Str :=
  match alookup m nodeId with
  | none => []
  | some node => trimWs (joinSep "\n\n".toList (hiddenContextLines nodeId node m))

theorem truncateForContext_length_le (t : Str) (maxChars : Nat)
    (h : 1 ≤ maxChars) : (truncateForContext t maxChars).length ≤ maxChars := by
  rw [truncateForContext]
  by_cases hle : (trimWs (collapseWs t)).length ≤ maxChars
  · rw [if_pos hle]
    exact hle
  · rw [if_neg hle]
    simp only [List.length_append, List.length_take, List.length_singleton]
    omega

theorem getLast?_not_mem_dropLast {l : List Str} {x : Str} (hnd : l.Nodup)
    (hlast : l.getLast? = some x) : x ∉ l.dropLast := by
  cases l with
  | nil => simp at hlast
  | cons a t =>
    have hne : (a :: t) ≠ [] := by simp
    have hx : (a :: t).getLast hne = x := by
      have h1 := List.getLast?_eq_getLast (a :: t) hne
      rw [hlast] at h1
      injection h1 with h2
      exact h2.symm
    intro hmem
    have hsplit := List.dropLast_append_getLast hne
    have hnd2 : ((a :: t).dropLast ++ [(a :: t).getLast hne]).Nodup := by
      rw [hsplit]
      exact hnd
    rw [List.nodup_append] at hnd2
    exact hnd2.2.2 (hx ▸ hmem) (List.mem_singleton.mpr rfl)

/-- Claim C6 (as stated) fails at the root node: in a well-formed tree
holding only the root, the breadcrumb renders the root's own title `"Root"`,
not the placeholder `"."`. -/
theorem claim_C6_counterexample :
    breadcrumbEntry [(rootId, createRootNode)]
        (getNodePathToRoot rootId [(rootId, createRootNode)]).length
        ((getNodePathToRoot rootId [(rootId, createRootNode)]).length - 1)
        rootId
      = some "Root".toList
      ∧ some "Root".toList ≠ some ".".toList
      ∧ (alookup [(rootId, createRootNode)] rootId).map Node.title
        = some "Root".toList
      ∧ buildHiddenContextForNode rootId [(rootId, createRootNode)]
        = ("Hidden context for the assistant (do not repeat verbatim unless asked):"
            ++ "\n\nBranch path: Root").toList := by
  refine ⟨by decide, by decide, by decide, ?_⟩
  decide

/-- Claim C6 (amended, restricted to non-root nodes): for a non-root node with
a nonempty `branchContext.excerpt`, the hidden context is the blank-line join
of its section lines, which include the excerpt block truncated to 1200
characters and, for each strict ancestor on the path that resolves and has
messages, its last-4-messages block with each message content truncated to
220 characters; the node itself is never among the ancestor ids, and its
breadcrumb entry is the placeholder `"."` rather than its title. (The root
node renders in the breadcrumb as its title — see the counterexample.) -/
theorem claim_C6_hidden_context (m : List (Str × Node)) (nodeId : Str)
    (node : Node) (bc : BranchContext)
    (hnode : alookup m nodeId = some node)
    (hroot : nodeId ≠ rootId)
    (hbc : node.branchContext = some bc)
    (hex : bc.excerpt ≠ []) :
    buildHiddenContextForNode nodeId m
        = trimWs (joinSep "\n\n".toList (hiddenContextLines nodeId node m))
      ∧ excerptLine bc.excerpt ∈ hiddenContextLines nodeId node m
      ∧ (truncateForContext bc.excerpt 1200).length ≤ 1200
      ∧ (∀ id ∈ (getNodePathToRoot nodeId m).dropLast, ∀ a : Node,
          alookup m id = some a → takeLast 4 a.messages ≠ [] →
            ancestorBlock a ∈ hiddenContextLines nodeId node m)
      ∧ (∀ t : Str, (truncateForContext t 220).length ≤ 220)
      ∧ nodeId ∉ (getNodePathToRoot nodeId m).dropLast
      ∧ breadcrumbEntry m (getNodePathToRoot nodeId m).length
          ((getNodePathToRoot nodeId m).length - 1) nodeId = some ".".toList := by
  obtain ⟨-, hnd, -, hlast, -⟩ := getNodePathToRoot_props m nodeId node hnode
  refine ⟨?_, ?_, ?_, ?_, ?_, ?_, ?_⟩
  · rw [buildHiddenContextForNode, hnode]
  · rw [hiddenContextLines, hbc]
    simp [hex, List.mem_append]
  · exact truncateForContext_length_le _ 1200 (by omega)
  · intro id hid a ha htail
    rw [hiddenContextLines]
    have hdne : (getNodePathToRoot nodeId m).dropLast ≠ [] :=
      List.ne_nil_of_mem hid
    rw [if_pos hdne]
    have hmem2 : ancestorBlock a ∈
        (getNodePathToRoot nodeId m).dropLast.filterMap (fun id =>
          match alookup m id with
          | none => none
          | some a =>
            if takeLast 4 a.messages = [] then none
            else some (ancestorBlock a)) := by
      rw [List.mem_filterMap]
      refine ⟨id, hid, ?_⟩
      simp only [ha]
      rw [if_neg htail]
    exact List.mem_append_right _ (List.mem_append_right _ hmem2)
  · exact fun t => truncateForContext_length_le t 220 (by omega)
  · exact getLast?_not_mem_dropLast hnd hlast
  · rw [breadcrumbEntry, if_pos ⟨rfl, hroot⟩]

/-- Concrete three-level tree used to witness claim C6. -/
def exRootC6 : Node :=
  { id := rootId, parentId := none, title := "Root".toList,
    messages := [⟨"user".toList, "hello root".toList⟩,
      ⟨"assistant".toList, "answer root".toList⟩] }

/-- Concrete three-level tree used to witness claim C6. -/
def exMidC6 : Node :=
  { id := "mid".toList, parentId := some rootId, title := "Mid".toList,
    messages := [⟨"user".toList, "mid question".toList⟩] }

/-- Concrete three-level tree used to witness claim C6. -/
def exLeafC6 : Node :=
  { id := "leaf".toList, parentId := some "mid".toList, title := "...".toList,
    messages := [⟨"user".toList, "leaf q".toList⟩],
    branchContext := some ⟨"the excerpt".toList, "mid".toList, 3⟩,
    requestStatus := .pending }

/-- Concrete three-level tree used to witness claim C6. -/
def exMapC6 : List (Str × Node) :=
  [(rootId, exRootC6), ("mid".toList, exMidC6), ("leaf".toList, exLeafC6)]

/-- Witness for the amended claim C6 on a concrete node three levels deep. -/
theorem claim_C6_hidden_context_witness :
    buildHiddenContextForNode "leaf".toList exMapC6
        = trimWs (joinSep "\n\n".toList
            (hiddenContextLines "leaf".toList exLeafC6 exMapC6))
      ∧ excerptLine "the excerpt".toList
        ∈ hiddenContextLines "leaf".toList exLeafC6 exMapC6
      ∧ (truncateForContext "the excerpt".toList 1200).length ≤ 1200
      ∧ (∀ id ∈ (getNodePathToRoot "leaf".toList exMapC6).dropLast, ∀ a : Node,
          alookup exMapC6 id = some a → takeLast 4 a.messages ≠ [] →
            ancestorBlock a ∈ hiddenContextLines "leaf".toList exLeafC6 exMapC6)
      ∧ (∀ t : Str, (truncateForContext t 220).length ≤ 220)
      ∧ "leaf".toList ∉ (getNodePathToRoot "leaf".toList exMapC6).dropLast
      ∧ breadcrumbEntry exMapC6 (getNodePathToRoot "leaf".toList exMapC6).length
          ((getNodePathToRoot "leaf".toList exMapC6).length - 1) "leaf".toList
        = some ".".toList :=
  claim_C6_hidden_context exMapC6 "leaf".toList exLeafC6
    ⟨"the excerpt".toList, "mid".toList, 3⟩ (by decide) (by decide) (by decide)
    (by decide)

/-! ## Graph Layout Engine (`App.jsx` lines 319-329 and 575-606) -/

/-- A node position in the layout (JavaScript numbers embedded as rationals;
all arithmetic here is exact). -/
structure LayoutPos where
  x : Rat
  y : Rat
deriving DecidableEq, Repr

/-- The mutable state of the layout walk: positions, edges, the horizontal
cursor and the maximal depth. -/
structure LayoutState where
  positions : List (Str × LayoutPos)
  edges : List (Str × Str)
  xCursor : Rat
  maxDepth : Nat
deriving DecidableEq, Repr

/-- Models `buildChildrenMap` (lines 319-329) read through
`childrenMap[nodeId] || []`: the child ids grouped by `parentId ?? "root-parent"`,
in node-map insertion order. -/
def childrenMapOf (m : List (Str × Node)) (pid : Str) : List Str :=
  (m.map Prod.snd).filterMap (fun n =>
    if (match n.parentId with
        | some p => p
        | none => "root-parent".toList) = pid
    then some n.id else none)

/-- Models `Math.min(...xs)` on a nonempty list. -/
def listMin : List Rat → Rat
  | [] => 0
  | x :: xs => xs.foldl min x

/-- Models `Math.max(...xs)` on a nonempty list. -/
def listMax : List Rat → Rat
  | [] => 0
  | x :: xs => xs.foldl max x

mutual

/-- Models the recursive `walk` of `graphLayout` (lines 581-596), with a fuel
parameter standing in for the JavaScript call stack: a childless node is
placed at the cursor and the cursor advances by the constant step 220; a node
with children first lays the children out, then sits at the horizontal
midpoint `(min + max) / 2` of their x-coordinates, at `depth * 160 + 70`. -/
def layoutWalk (cm : Str → List Str) : Nat → Str → Nat → LayoutState → LayoutState
  | 0, _, _, st => st
  | fuel + 1, nodeId, depth, st =>
    match cm nodeId with
    | [] =>
      { st with
        maxDepth := max st.maxDepth depth
        positions := objSet st.positions nodeId
          ⟨st.xCursor, ((depth : Rat) * 160 + 70)⟩
        xCursor := st.xCursor + 220 }
    | c :: cs =>
      let st2 := layoutKids cm fuel nodeId depth (c :: cs)
        { st with maxDepth := max st.maxDepth depth }
      { st2 with
        positions := objSet st2.positions nodeId
          ⟨(listMin ((c :: cs).map (fun childId =>
              ((alookup st2.positions childId).map LayoutPos.x).getD 0))
            + listMax ((c :: cs).map (fun childId =>
              ((alookup st2.positions childId).map LayoutPos.x).getD 0))) / 2,
            ((depth : Rat) * 160 + 70)⟩ }
termination_by fuel _ _ _ => (fuel, 0)

/-- The `children.forEach` of the walk: push the edge, then recurse into the
child one level deeper. -/
def layoutKids (cm : Str → List Str) :
    Nat → Str → Nat → List Str → LayoutState → LayoutState
  | _, _, _, [], st => st
  | fuel, nodeId, depth, c :: cs, st =>
    layoutKids cm fuel nodeId depth cs
      (layoutWalk cm fuel c (depth + 1) { st with edges := st.edges ++ [(nodeId, c)] })
termination_by fuel _ _ kids _ => (fuel, kids.length + 1)

end

/-- The record `graphLayout` returns. -/
structure GraphLayout where
  positions : List (Str × LayoutPos)
  edges : List (Str × Str)
  width : Rat
  height : Nat
deriving DecidableEq, Repr

/-- Models `graphLayout` (lines 575-606): walk from `"root"` at depth 0 with
the cursor starting at 80, then derive overall bounds. -/
def graphLayout (m : List (Str × Node)) (fuel : Nat) : GraphLayout :=
  let st := layoutWalk (childrenMapOf m) fuel rootId 0 ⟨[], [], 80, 0⟩
  { positions := st.positions, edges := st.edges,
    width := max (st.xCursor + 120) 240,
    height := (st.maxDepth + 1) * 160 + 120 }

theorem layoutWalk_leaf (cm : Str → List Str) (fuel : Nat) (leafId : Str)
    (d : Nat) (st : LayoutState) (hleaf : cm leafId = []) :
    layoutWalk cm (fuel + 1) leafId d st
      = { st with
          maxDepth := max st.maxDepth d
          positions := objSet st.positions leafId
            ⟨st.xCursor, ((d : Rat) * 160 + 70)⟩
          xCursor := st.xCursor + 220 } := by
  rw [layoutWalk, hleaf]

theorem alookup_objSet_isSome (l : List (Str × α)) (k k' : Str) (v : α)
    (h : (alookup l k).isSome = true) :
    (alookup (objSet l k' v) k).isSome = true := by
  by_cases hk : k = k'
  · rw [hk, alookup_objSet_self]
    rfl
  · rw [alookup_objSet_other _ _ hk]
    exact h

/-- The layout walk only ever adds or overwrites positions: any key holding a
position keeps holding one through a walk or a children pass. -/
theorem layout_positions_isSome_mono (cm : Str → List Str) :
    ∀ fuel : Nat,
      (∀ nodeId d st k, (alookup st.positions k).isSome = true →
        (alookup (layoutWalk cm fuel nodeId d st).positions k).isSome = true)
      ∧ (∀ nodeId d kids st k, (alookup st.positions k).isSome = true →
        (alookup (layoutKids cm fuel nodeId d kids st).positions k).isSome
          = true) := by
  intro fuel
  induction fuel with
  | zero =>
    constructor
    · intro nodeId d st k h
      rw [layoutWalk]
      exact h
    · intro nodeId d kids
      induction kids with
      | nil =>
        intro st k h
        rw [layoutKids]
        exact h
      | cons c cs ih =>
        intro st k h
        rw [layoutKids]
        apply ih
        rw [layoutWalk]
        exact h
  | succ fuel ih =>
    have hW : ∀ nodeId d st k, (alookup st.positions k).isSome = true →
        (alookup (layoutWalk cm (fuel + 1) nodeId d st).positions k).isSome
          = true := by
      intro nodeId d st k h
      rw [layoutWalk]
      cases hcm : cm nodeId with
      | nil =>
        exact alookup_objSet_isSome _ _ _ _ h
      | cons c cs =>
        exact alookup_objSet_isSome _ _ _ _
          (ih.2 nodeId d (c :: cs) { st with maxDepth := max st.maxDepth d } k h)
    refine ⟨hW, ?_⟩
    intro nodeId d kids
    induction kids with
    | nil =>
      intro st k h
      rw [layoutKids]
      exact h
    | cons c cs ihkids =>
      intro st k h
      rw [layoutKids]
      exact ihkids _ k (hW c (d + 1) _ k h)

/-- A walk with fuel left always records a position for the node it walks. -/
theorem layoutWalk_positions_self (cm : Str → List Str) (fuel : Nat)
    (nodeId : Str) (d : Nat) (st : LayoutState) :
    (alookup (layoutWalk cm (fuel + 1) nodeId d st).positions nodeId).isSome
      = true := by
  rw [layoutWalk]
  cases hcm : cm nodeId with
  | nil => simp [alookup_objSet_self]
  | cons c cs => simp [alookup_objSet_self]

/-- After the children pass of a walk with fuel left, every child in the list
holds a computed position. -/
theorem layoutKids_positions_assign (cm : Str → List Str) (fuel : Nat)
    (nodeId : Str) (d : Nat) :
    ∀ kids st, ∀ c ∈ kids,
      (alookup (layoutKids cm (fuel + 1) nodeId d kids st).positions c).isSome
        = true := by
  intro kids
  induction kids with
  | nil =>
    intro st c hc
    exact absurd hc (List.not_mem_nil c)
  | cons c0 cs ih =>
    intro st c hc
    rw [layoutKids]
    rcases List.mem_cons.mp hc with rfl | hc2
    · exact (layout_positions_isSome_mono cm (fuel + 1)).2 nodeId d cs _ c
        (layoutWalk_positions_self cm fuel c (d + 1) _)
    · exact ih _ c hc2

/-- The layout state after the walk has recursed into each of `n`'s children
in order (the `children.forEach` pass), before `n` itself is placed. -/
def layoutAfterKids (cm : Str → List Str) (fuel : Nat) (n : Str) (d : Nat)
    (st : LayoutState) : LayoutState :=
  layoutKids cm fuel n d (cm n) { st with maxDepth := max st.maxDepth d }

/-- The children's already-computed x-coordinates the walk reads back
(`childXs = children.map((childId) => positions[childId].x)`). -/
def childXs (cm : Str → List Str) (fuel : Nat) (n : Str) (d : Nat)
    (st : LayoutState) : List Rat :=
  (cm n).map (fun childId =>
    ((alookup (layoutAfterKids cm fuel n d st).positions childId).map
      LayoutPos.x).getD 0)

/-- Claim C7: the layout places every childless node at the current cursor
position and advances the cursor by the constant step 220; every node with a
nonempty children list — whatever their number or shape — is placed, after
the walk has recursed into each child in order, at the horizontal midpoint
`(min + max) / 2` of its children's already-computed x-coordinates, each
child indeed holding a computed position at that moment; in particular, for
a node with exactly two distinct leaf children, the children land at `x₀`
and `x₀ + 220` and the parent at `(x₀ + (x₀ + 220)) / 2`, their arithmetic
mean. -/
theorem claim_C7_graph_layout_midpoint (cm : Str → List Str) (fuel : Nat) :
    (∀ leafId d st, cm leafId = [] →
        layoutWalk cm (fuel + 1) leafId d st
          = { st with
              maxDepth := max st.maxDepth d
              positions := objSet st.positions leafId
                ⟨st.xCursor, ((d : Rat) * 160 + 70)⟩
              xCursor := st.xCursor + 220 })
      ∧ (∀ n d st, cm n ≠ [] →
          (∀ c ∈ cm n,
            (alookup (layoutAfterKids cm (fuel + 1) n d st).positions c).isSome
              = true)
          ∧ layoutWalk cm (fuel + 2) n d st
            = { layoutAfterKids cm (fuel + 1) n d st with
                positions := objSet
                  (layoutAfterKids cm (fuel + 1) n d st).positions n
                  ⟨(listMin (childXs cm (fuel + 1) n d st)
                    + listMax (childXs cm (fuel + 1) n d st)) / 2,
                    ((d : Rat) * 160 + 70)⟩ }
          ∧ alookup (layoutWalk cm (fuel + 2) n d st).positions n
            = some ⟨(listMin (childXs cm (fuel + 1) n d st)
                + listMax (childXs cm (fuel + 1) n d st)) / 2,
                ((d : Rat) * 160 + 70)⟩)
      ∧ (∀ n a b d st, cm n = [a, b] → cm a = [] → cm b = [] → a ≠ b →
          alookup (layoutWalk cm (fuel + 2) n d st).positions a
            = some ⟨st.xCursor, ((d + 1 : Nat) : Rat) * 160 + 70⟩
          ∧ alookup (layoutWalk cm (fuel + 2) n d st).positions b
            = some ⟨st.xCursor + 220, ((d + 1 : Nat) : Rat) * 160 + 70⟩
          ∧ alookup (layoutWalk cm (fuel + 2) n d st).positions n
            = some ⟨(st.xCursor + (st.xCursor + 220)) / 2, (d : Rat) * 160 + 70⟩
          ∧ (st.xCursor + (st.xCursor + 220)) / 2
            = (min st.xCursor (st.xCursor + 220)
                + max st.xCursor (st.xCursor + 220)) / 2) := by
  refine ⟨fun leafId d st hleaf => layoutWalk_leaf cm fuel leafId d st hleaf,
    ?_, ?_⟩
  · intro n d st hn
    have hassign : ∀ c ∈ cm n,
        (alookup (layoutAfterKids cm (fuel + 1) n d st).positions c).isSome
          = true := by
      intro c hc
      rw [layoutAfterKids]
      exact layoutKids_positions_assign cm fuel n d (cm n) _ c hc
    have heq : layoutWalk cm (fuel + 2) n d st
        = { layoutAfterKids cm (fuel + 1) n d st with
            positions := objSet
              (layoutAfterKids cm (fuel + 1) n d st).positions n
              ⟨(listMin (childXs cm (fuel + 1) n d st)
                + listMax (childXs cm (fuel + 1) n d st)) / 2,
                ((d : Rat) * 160 + 70)⟩ } := by
      cases hcm : cm n with
      | nil => exact absurd hcm hn
      | cons c cs =>
        simp only [layoutWalk, layoutAfterKids, childXs, hcm]
    refine ⟨hassign, heq, ?_⟩
    rw [heq]
    simp only
    exact alookup_objSet_self _ _ _
  · intro n a b d st hn ha hb hab
    have hna : n ≠ a := by
      intro h
      rw [h, ha] at hn
      simp at hn
    have hnb : n ≠ b := by
      intro h
      rw [h, hb] at hn
      simp at hn
    have hle : st.xCursor ≤ st.xCursor + 220 := by linarith
    have e1 : layoutKids cm (fuel + 1) n d [a, b]
        { st with maxDepth := max st.maxDepth d }
        = { positions := objSet
              (objSet st.positions a ⟨st.xCursor, ((d + 1 : Nat) : Rat) * 160 + 70⟩)
              b ⟨st.xCursor + 220, ((d + 1 : Nat) : Rat) * 160 + 70⟩
            edges := (st.edges ++ [(n, a)]) ++ [(n, b)]
            xCursor := st.xCursor + 220 + 220
            maxDepth := max (max (max st.maxDepth d) (d + 1)) (d + 1) } := by
      rw [layoutKids]
      rw [layoutWalk_leaf cm fuel a (d + 1) _ ha]
      rw [layoutKids]
      rw [layoutWalk_leaf cm fuel b (d + 1) _ hb]
      rw [layoutKids]
    have hla : alookup
        (objSet (objSet st.positions a ⟨st.xCursor, ((d + 1 : Nat) : Rat) * 160 + 70⟩)
          b ⟨st.xCursor + 220, ((d + 1 : Nat) : Rat) * 160 + 70⟩) a
        = some ⟨st.xCursor, ((d + 1 : Nat) : Rat) * 160 + 70⟩ := by
      rw [alookup_objSet_other _ _ hab]
      exact alookup_objSet_self _ _ _
    have hlb : alookup
        (objSet (objSet st.positions a ⟨st.xCursor, ((d + 1 : Nat) : Rat) * 160 + 70⟩)
          b ⟨st.xCursor + 220, ((d + 1 : Nat) : Rat) * 160 + 70⟩) b
        = some ⟨st.xCursor + 220, ((d + 1 : Nat) : Rat) * 160 + 70⟩ :=
      alookup_objSet_self _ _ _
    have hmid :
        (listMin ([a, b].map (fun childId =>
            ((alookup
              (objSet (objSet st.positions a
                  ⟨st.xCursor, ((d + 1 : Nat) : Rat) * 160 + 70⟩)
                b ⟨st.xCursor + 220, ((d + 1 : Nat) : Rat) * 160 + 70⟩)
              childId).map LayoutPos.x).getD 0))
          + listMax ([a, b].map (fun childId =>
            ((alookup
              (objSet (objSet st.positions a
                  ⟨st.xCursor, ((d + 1 : Nat) : Rat) * 160 + 70⟩)
                b ⟨st.xCursor + 220, ((d + 1 : Nat) : Rat) * 160 + 70⟩)
              childId).map LayoutPos.x).getD 0))) / 2
        = (st.xCursor + (st.xCursor + 220)) / 2 := by
      simp only [List.map_cons, List.map_nil, hla, hlb, Option.map_some',
        Option.getD_some]
      rw [listMin, listMax]
      simp only [List.foldl_cons, List.foldl_nil]
      rw [min_eq_left hle, max_eq_right hle]
    have e2 : layoutWalk cm (fuel + 2) n d st
        = { positions := objSet
              (objSet (objSet st.positions a
                  ⟨st.xCursor, ((d + 1 : Nat) : Rat) * 160 + 70⟩)
                b ⟨st.xCursor + 220, ((d + 1 : Nat) : Rat) * 160 + 70⟩)
              n ⟨(st.xCursor + (st.xCursor + 220)) / 2, (d : Rat) * 160 + 70⟩
            edges := (st.edges ++ [(n, a)]) ++ [(n, b)]
            xCursor := st.xCursor + 220 + 220
            maxDepth := max (max (max st.maxDepth d) (d + 1)) (d + 1) } := by
      simp only [layoutWalk, hn, e1, hmid]
    refine ⟨?_, ?_, ?_, ?_⟩
    · rw [e2]
      simp only
      rw [alookup_objSet_other _ _ (Ne.symm hna)]
      exact hla
    · rw [e2]
      simp only
      rw [alookup_objSet_other _ _ (Ne.symm hnb)]
      exact hlb
    · rw [e2]
      simp only
      exact alookup_objSet_self _ _ _
    · rw [min_eq_left hle, max_eq_right hle]

/-- Concrete tree used to witness claim C7: a root with two leaf children. -/
def exMapC7 : List (Str × Node) :=
  [(rootId, createRootNode),
    ("a".toList,
      { id := "a".toList, parentId := some rootId, title := "A".toList,
        messages := [] }),
    ("b".toList,
      { id := "b".toList, parentId := some rootId, title := "B".toList,
        messages := [] })]

/-- Concrete tree used to witness the general midpoint clause of claim C7:
a root with three children, one of which is itself a parent. -/
def exMapC7wide : List (Str × Node) :=
  [(rootId, createRootNode),
    ("a".toList,
      { id := "a".toList, parentId := some rootId, title := "A".toList,
        messages := [] }),
    ("b".toList,
      { id := "b".toList, parentId := some rootId, title := "B".toList,
        messages := [] }),
    ("c".toList,
      { id := "c".toList, parentId := some rootId, title := "C".toList,
        messages := [] }),
    ("e".toList,
      { id := "e".toList, parentId := some "a".toList, title := "E".toList,
        messages := [] })]

/-- Witness for claim C7: on a concrete root with three children — one of
them itself a parent — every child holds a computed position after the
children pass and the root sits at the midpoint of their x-coordinates; on
a concrete root with two leaf children, the children land at 80 and 300 and
the root at 190 = (80 + 300) / 2. -/
theorem claim_C7_graph_layout_midpoint_witness :
    (layoutWalk (childrenMapOf exMapC7) 1 "a".toList 0 ⟨[], [], 80, 0⟩
        = { positions := objSet [] "a".toList ⟨80, 70⟩,
            edges := [], xCursor := 80 + 220, maxDepth := 0 })
      ∧ (∀ c ∈ childrenMapOf exMapC7wide rootId,
          (alookup (layoutAfterKids (childrenMapOf exMapC7wide) 2 rootId 0
              ⟨[], [], 80, 0⟩).positions c).isSome = true)
      ∧ alookup (layoutWalk (childrenMapOf exMapC7wide) 3 rootId 0
            ⟨[], [], 80, 0⟩).positions rootId
        = some ⟨(listMin (childXs (childrenMapOf exMapC7wide) 2 rootId 0
              ⟨[], [], 80, 0⟩)
            + listMax (childXs (childrenMapOf exMapC7wide) 2 rootId 0
              ⟨[], [], 80, 0⟩)) / 2, 70⟩
      ∧ alookup (layoutWalk (childrenMapOf exMapC7) 2 rootId 0
            ⟨[], [], 80, 0⟩).positions "a".toList
        = some ⟨80, 160 + 70⟩
      ∧ alookup (layoutWalk (childrenMapOf exMapC7) 2 rootId 0
            ⟨[], [], 80, 0⟩).positions "b".toList
        = some ⟨80 + 220, 160 + 70⟩
      ∧ alookup (layoutWalk (childrenMapOf exMapC7) 2 rootId 0
            ⟨[], [], 80, 0⟩).positions rootId
        = some ⟨(80 + (80 + 220)) / 2, 70⟩ := by
  have h := claim_C7_graph_layout_midpoint (childrenMapOf exMapC7) 0
  have hw := claim_C7_graph_layout_midpoint (childrenMapOf exMapC7wide) 1
  have h1 := h.1 "a".toList 0 ⟨[], [], 80, 0⟩ (by decide)
  have h2 := hw.2.1 rootId 0 ⟨[], [], 80, 0⟩ (by decide)
  have h3 := h.2.2 rootId "a".toList "b".toList 0 ⟨[], [], 80, 0⟩
    (by decide) (by decide) (by decide) (by decide)
  refine ⟨by simpa using h1, ?_, ?_, ?_, ?_, ?_⟩
  · simpa using h2.1
  · simpa using h2.2.2
  · simpa using h3.1
  · simpa using h3.2.1
  · simpa using h3.2.2.1

/-! ## Generated-title normalization facts (claim C5) -/

/-- Number of nonempty space-separated words of a string. -/
def wordCount (s : Str) : Nat :=
  ((splitOnChar ' ' s).filter (· ≠ ([] : Str))).length

theorem not_mem_of_mem_splitOnChar {sep : Char} {l p : Str}
    (h : p ∈ splitOnChar sep l) : sep ∉ p := by
  induction l generalizing p with
  | nil =>
    rw [splitOnChar] at h
    rcases List.mem_singleton.mp h with rfl
    simp
  | cons c rest ih =>
    rw [splitOnChar] at h
    by_cases hc : c = sep
    · rw [if_pos hc] at h
      rcases List.mem_cons.mp h with rfl | h2
      · simp
      · exact ih h2
    · rw [if_neg hc] at h
      cases hsplit : splitOnChar sep rest with
      | nil =>
        rw [hsplit] at h
        rcases List.mem_singleton.mp h with rfl
        intro hmem
        rcases List.mem_singleton.mp hmem with rfl
        exact hc rfl
      | cons h0 t0 =>
        rw [hsplit] at h
        rcases List.mem_cons.mp h with rfl | h2
        · intro hmem
          rcases List.mem_cons.mp hmem with rfl | hmem2
          · exact hc rfl
          · exact ih (hsplit ▸ List.mem_cons_self h0 t0) hmem2
        · exact ih (hsplit ▸ List.mem_cons_of_mem h0 h2)

theorem splitOnChar_no_sep {sep : Char} {w : Str} (h : sep ∉ w) :
    splitOnChar sep w = [w] := by
  induction w with
  | nil => rfl
  | cons c w ih =>
    rw [splitOnChar]
    have hc : ¬(c = sep) := fun hh => h (hh ▸ List.mem_cons_self c w)
    rw [if_neg hc]
    rw [ih (fun hh => h (List.mem_cons_of_mem c hh))]

theorem splitOnChar_append_sep {sep : Char} {w rest : Str} (h : sep ∉ w) :
    splitOnChar sep (w ++ sep :: rest) = w :: splitOnChar sep rest := by
  induction w with
  | nil =>
    rw [List.nil_append, splitOnChar, if_pos rfl]
  | cons c w ih =>
    have hc : ¬(c = sep) := fun hh => h (hh ▸ List.mem_cons_self c w)
    rw [List.cons_append, splitOnChar, if_neg hc,
      ih (fun hh => h (List.mem_cons_of_mem c hh))]

theorem splitOnChar_joinSep (sep : Char) :
    ∀ ws : List Str, ws ≠ [] → (∀ w ∈ ws, sep ∉ w) →
      splitOnChar sep (joinSep [sep] ws) = ws := by
  intro ws
  induction ws with
  | nil => intro h _; exact absurd rfl h
  | cons w ws ih =>
    intro _ hsep
    cases ws with
    | nil =>
      rw [joinSep]
      exact splitOnChar_no_sep (hsep w (List.mem_cons_self _ _))
    | cons w2 ws2 =>
      rw [joinSep]
      have h1 : w ++ [sep] ++ joinSep [sep] (w2 :: ws2)
          = w ++ (sep :: joinSep [sep] (w2 :: ws2)) := by simp
      rw [h1, splitOnChar_append_sep (hsep w (List.mem_cons_self _ _))]
      rw [ih (by simp) (fun x hx => hsep x (List.mem_cons_of_mem w hx))]
      simp

theorem wordCount_normalizeGeneratedTitle (t fb : Str) :
    normalizeGeneratedTitle t fb = fb
      ∨ wordCount (normalizeGeneratedTitle t fb) ≤ 4 := by
  rw [normalizeGeneratedTitle]
  by_cases h1 : trimWs (collapseWs t) = []
  · rw [if_pos h1]
    exact Or.inl rfl
  · rw [if_neg h1]
    by_cases h2 : (splitOnChar ' ' (trimWs (collapseWs t))).filter (· ≠ ([] : Str)) = []
    · rw [if_pos h2]
      exact Or.inl rfl
    · rw [if_neg h2]
      refine Or.inr ?_
      obtain ⟨w0, ws0, hws⟩ := List.exists_cons_of_ne_nil h2
      have htake_ne : ((splitOnChar ' ' (trimWs (collapseWs t))).filter
          (· ≠ ([] : Str))).take 4 ≠ [] := by
        rw [hws]
        simp
      have hnosep : ∀ w ∈ ((splitOnChar ' ' (trimWs (collapseWs t))).filter
          (· ≠ ([] : Str))).take 4, ' ' ∉ w := by
        intro w hw
        exact not_mem_of_mem_splitOnChar
          (List.mem_of_mem_filter (List.mem_of_mem_take hw))
      have hsep : (" ".toList : Str) = [' '] := rfl
      rw [wordCount, hsep,
        splitOnChar_joinSep ' ' _ htake_ne hnosep]
      calc (((( splitOnChar ' ' (trimWs (collapseWs t))).filter
              (· ≠ ([] : Str))).take 4).filter (· ≠ ([] : Str))).length
          ≤ (((splitOnChar ' ' (trimWs (collapseWs t))).filter
              (· ≠ ([] : Str))).take 4).length := List.length_filter_le _ _
        _ ≤ 4 := List.length_take_le _ _

/-- Claim C5 (as stated) is refuted: the branch-title success handler has no
placeholder check — a node the user renamed to `"My Custom Name"` still gets
its title overwritten by the normalized generated title. -/
theorem claim_C5_counterexample :
    (branchTitleSuccessUpdate "A Very Long Generated Title".toList
        { id := "n1".toList, parentId := some rootId,
          title := "My Custom Name".toList, messages := [] }).title
      = "A Very Long Generated".toList
    ∧ "My Custom Name".toList ≠ "...".toList
    ∧ (branchTitleSuccessUpdate "A Very Long Generated Title".toList
        { id := "n1".toList, parentId := some rootId,
          title := "My Custom Name".toList, messages := [] }).title
      ≠ "My Custom Name".toList := by
  have hnorm : normalizeGeneratedTitle "A Very Long Generated Title".toList
      "...".toList = "A Very Long Generated".toList := by
    simp +decide [normalizeGeneratedTitle, collapseWs, trimWs, splitOnChar,
      joinSep, isWsChar, List.dropWhile, List.takeWhile]
  refine ⟨?_, by decide, ?_⟩
  · rw [branchTitleSuccessUpdate]
    simp only [hnorm]
  · rw [branchTitleSuccessUpdate]
    simp only [hnorm]
    decide

/-- Claim C5 (amended): on branch-title success the title is normalized
(whitespace collapsed and trimmed, capped at 4 words) and written to the node
unconditionally — there is no placeholder check in the branch path, so a
user rename is overwritten (last-writer-wins); the placeholder guard exists
only in the separate tree auto-title path of `handleSend`. -/
theorem claim_C5_title_written_unconditionally (st : TreesState)
    (treeId nodeId : Str) (now : Nat) (generated : Str) (tree : Tree)
    (node : Node)
    (htree : alookup st.treesById treeId = some tree)
    (hnode : alookup tree.nodesById nodeId = some node) :
    (∃ tree' node',
        alookup (updateNode st treeId nodeId now
            (branchTitleSuccessUpdate generated)).treesById treeId = some tree'
          ∧ alookup tree'.nodesById nodeId = some node'
          ∧ node'.title = normalizeGeneratedTitle generated "...".toList)
      ∧ (normalizeGeneratedTitle generated "...".toList = "...".toList
          ∨ wordCount (normalizeGeneratedTitle generated "...".toList) ≤ 4) := by
  refine ⟨?_, wordCount_normalizeGeneratedTitle generated "...".toList⟩
  by_cases hchg : branchTitleSuccessUpdate generated node = node
  · have hF : (fun prevNodes =>
        match alookup prevNodes nodeId with
        | none => prevNodes
        | some node0 =>
          if branchTitleSuccessUpdate generated node0 = node0 then prevNodes
          else objSet prevNodes nodeId (branchTitleSuccessUpdate generated node0))
        tree.nodesById = tree.nodesById := by
      simp only [hnode]
      rw [if_pos hchg]
    have hsame : updateNode st treeId nodeId now
        (branchTitleSuccessUpdate generated) = st := by
      simp only [updateNode, updateTreeNodes, htree, hF]
      simp
    refine ⟨tree, node, by rw [hsame]; exact htree, hnode, ?_⟩
    have := congrArg Node.title hchg
    rw [branchTitleSuccessUpdate] at this
    exact this.symm
  · have hF : (fun prevNodes =>
        match alookup prevNodes nodeId with
        | none => prevNodes
        | some node0 =>
          if branchTitleSuccessUpdate generated node0 = node0 then prevNodes
          else objSet prevNodes nodeId (branchTitleSuccessUpdate generated node0))
        tree.nodesById
        = objSet tree.nodesById nodeId (branchTitleSuccessUpdate generated node) := by
      simp only [hnode]
      rw [if_neg hchg]
    have hne : objSet tree.nodesById nodeId (branchTitleSuccessUpdate generated node)
        ≠ tree.nodesById := by
      intro heq
      have h1 := alookup_objSet_self tree.nodesById nodeId
        (branchTitleSuccessUpdate generated node)
      rw [heq, hnode] at h1
      injection h1 with h2
      exact hchg h2.symm
    refine ⟨{ tree with
        nodesById := objSet tree.nodesById nodeId
          (branchTitleSuccessUpdate generated node)
        updatedAt := now }, branchTitleSuccessUpdate generated node, ?_, ?_, rfl⟩
    · simp only [updateNode, updateTreeNodes, htree, hF]
      rw [if_neg hne]
      exact alookup_objSet_self _ _ _
    · exact alookup_objSet_self _ _ _

/-- Witness for the amended claim C5 on a concrete store: the node's title
becomes the normalized generated title. -/
theorem claim_C5_title_written_unconditionally_witness :
    (∃ tree' node',
        alookup (updateNode exStateC9 "t1".toList "n1".toList 300
            (branchTitleSuccessUpdate "Great Title".toList)).treesById "t1".toList
          = some tree'
          ∧ alookup tree'.nodesById "n1".toList = some node'
          ∧ node'.title = normalizeGeneratedTitle "Great Title".toList "...".toList)
      ∧ (normalizeGeneratedTitle "Great Title".toList "...".toList = "...".toList
          ∨ wordCount (normalizeGeneratedTitle "Great Title".toList "...".toList)
            ≤ 4) :=
  claim_C5_title_written_unconditionally exStateC9 "t1".toList "n1".toList 300
    "Great Title".toList exTreeC9 exNodeC9 (by decide) (by decide)

end BranchGPT
